import Mathlib

/-!
Shallow embedding of the git-branch-tree program (`src/main.go`).

The Go program builds a graph of `CommitNode` values that are shared by
pointer and mutated in place.  The embedding replaces pointer aliasing by
an arena: `BuildState.nodes` is the arena of all nodes created so far, a
node is addressed by its index, and the interning table `cns` maps a
commit hash to the index of its node.  The Go maps `cns`, `mMap` and
`mNeeded` are only ever used for lookup, membership, insertion, deletion
and emptiness tests (never iterated), so they are embedded as lists with
the corresponding set/map semantics.
-/

namespace GitBranchTree

/-- Mirrors Go `type Branch struct { Name string; Current bool }`. -/
structure Branch where
  name : String
  current : Bool
deriving Repr, DecidableEq

instance : Inhabited Branch := ⟨⟨"", false⟩⟩

/-- Mirrors Go `type Commit struct { Hash, Subject, Author string; OnMaster bool }`.
`listCommits` always produces commits with `onMaster = false`, the zero value. -/
structure Commit where
  hash : String
  author : String
  subject : String
  onMaster : Bool
deriving Repr, DecidableEq

instance : Inhabited Commit := ⟨⟨"", "", "", false⟩⟩

/-- Convenience constructor for commits as produced by `listCommits`
(`OnMaster` starts at the Go zero value `false`). -/
def mkCommit (hash author subject : String) : Commit :=
  ⟨hash, author, subject, false⟩

/-- Mirrors Go `type CommitNode struct { Commit; Branches []Branch; Children []*CommitNode }`.
Children are arena indices instead of pointers. -/
structure CommitNode where
  commit : Commit
  branches : List Branch
  children : List Nat
deriving Repr, DecidableEq

instance : Inhabited CommitNode := ⟨⟨default, [], []⟩⟩

/-- The mutable heap of one run of `main`: the node arena, the interning
table `cns` (hash to arena index) and the `mNeeded` set of hashes. -/
structure BuildState where
  nodes : Array CommitNode
  cns : List (String × Nat)
  mNeeded : List String
deriving Repr, DecidableEq

/-- State at the top of `main`, before any branch is scanned. -/
def initState : BuildState := ⟨#[], [], []⟩

/-- Go `cn, ok = cns[commit.Hash]`: lookup in the interning table. -/
def lookupCns (s : BuildState) (h : String) : Option Nat :=
  (s.cns.find? (fun p => p.1 == h)).map (fun p => p.2)

/-- Reads a node from the arena (a Go pointer dereference). -/
def getNode (s : BuildState) (i : Nat) : CommitNode :=
  s.nodes.getD i default

/-- Writes through a node pointer: replaces the node at index `i`. -/
def modifyNode (s : BuildState) (i : Nat) (f : CommitNode → CommitNode) : BuildState :=
  { s with nodes := s.nodes.modify i f }

/-- Mirrors Go `main` lines 204..209: look the hash up in `cns`; when absent
create a fresh node holding the commit and intern it.  Returns the new
state, the node index (`cn`) and the found flag (`ok`). -/
def internNode (s : BuildState) (c : Commit) : BuildState × Nat × Bool :=
  match lookupCns s c.hash with
  | some i => (s, i, true)
  | none =>
      ({ s with
          nodes := s.nodes.push ⟨c, [], []⟩,
          cns := (c.hash, s.nodes.size) :: s.cns }, s.nodes.size, false)

/-- Membership in Go `mMap` (which is built from `mCommits` keyed by hash and
only ever used for membership tests). -/
def mMapContains (mCommits : List Commit) (h : String) : Bool :=
  mCommits.any (fun c => c.hash == h)

/-- Go `mNeeded[hash] = true`: set insertion. -/
def insertNeeded (l : List String) (h : String) : List String :=
  if l.contains h then l else l ++ [h]

/-- Go `delete(mNeeded, hash)`: set deletion. -/
def deleteNeeded (l : List String) (h : String) : List String :=
  l.filter (fun x => x != h)

/-- Go `cn.Branches = append(cn.Branches, branch)` guarded by `i == 0`
(lines 210..212). -/
def scanTag (branch : Branch) (i : Nat) (idx : Nat) (s : BuildState) : BuildState :=
  if i == 0 then
    modifyNode s idx (fun n => { n with branches := n.branches ++ [branch] })
  else s

/-- Go `cn.Children = append(cn.Children, lastCn)` guarded by `lastCn != nil`
(lines 213..215). -/
def scanLink (lastCn : Option Nat) (idx : Nat) (s : BuildState) : BuildState :=
  match lastCn with
  | some l => modifyNode s idx (fun n => { n with children := n.children ++ [l] })
  | none => s

/-- Mirrors the inner branch-scan loop of `main` (lines 203..225).  `i` is the
loop index, `lastCn` the previously visited node.  Each commit is interned,
the branch tag is appended at `i = 0`, `lastCn` is linked as a child, and the
scan stops after a commit whose node already existed (`ok`) or whose hash is
in `mMap` (which also records the hash in `mNeeded`).  Returns the state and
the final value of the shared variable `cn`/`lastCn` (`none` when the commit
list was empty). -/
def scanBranchAux (mCommits : List Commit) (branch : Branch) :
    List Commit → Nat → Option Nat → BuildState → BuildState × Option Nat
  | [], _, lastCn, s => (s, lastCn)
  | c :: rest, i, lastCn, s =>
      match internNode s c with
      | (s1, idx, ok) =>
          let s3 := scanLink lastCn idx (scanTag branch i idx s1)
          if ok then (s3, some idx)
          else if mMapContains mCommits c.hash then
            ({ s3 with mNeeded := insertNeeded s3.mNeeded c.hash }, some idx)
          else scanBranchAux mCommits branch rest (i + 1) (some idx) s3

/-- Mirrors the outer branch loop of `main` (lines 191..226): the branch whose
name equals `mainBranchName` is held aside as `mainBranch`, every other
branch is scanned over its fetched commit list.  `gcn` threads the shared
variable `cn` across iterations. -/
def branchPhase (mCommits : List Commit) (mainBranchName : String)
    (fetch : String → List Commit) :
    List Branch → Branch → Option Nat → BuildState → BuildState × Branch × Option Nat
  | [], mainBranch, gcn, s => (s, mainBranch, gcn)
  | b :: rest, mainBranch, gcn, s =>
      if b.name == mainBranchName then
        branchPhase mCommits mainBranchName fetch rest b gcn s
      else
        match scanBranchAux mCommits b (fetch b.name) 0 none s with
        | (s1, last) =>
            branchPhase mCommits mainBranchName fetch rest mainBranch
              (match last with | some i => some i | none => gcn) s1

/-- Go `hasChild(node, hash)` (lines 262..269). -/
def hasChild (s : BuildState) (idx : Nat) (h : String) : Bool :=
  (getNode s idx).children.any (fun ci => (getNode s ci).commit.hash == h)

/-- Reads `lastCn.Subject`.  In Go a `nil` `lastCn` here would be a nil
dereference; the code only reaches this read at loop index `i ≥ 1`, where
`lastCn` is always set. -/
def lastSubject (s : BuildState) (lastCn : Option Nat) : String :=
  match lastCn with
  | some l => (getNode s l).commit.subject
  | none => ""

/-- Go `cn.OnMaster = true` (line 236). -/
def walkMarkMaster (idx : Nat) (s : BuildState) : BuildState :=
  modifyNode s idx (fun n => { n with commit := { n.commit with onMaster := true } })

/-- Go `cn.Branches = append(cn.Branches, mainBranch)` guarded by `i == 0`
(lines 237..239). -/
def walkTag (mainBranch : Branch) (i : Nat) (idx : Nat) (s : BuildState) : BuildState :=
  if i == 0 then
    modifyNode s idx (fun n => { n with branches := n.branches ++ [mainBranch] })
  else s

/-- Go `if lastCn != nil && !hasChild(cn, lastCn.Hash) { cn.Children =
append([]*CommitNode{lastCn}, cn.Children...) }` (lines 240..242). -/
def walkLink (lastCn : Option Nat) (idx : Nat) (s : BuildState) : BuildState :=
  match lastCn with
  | some l =>
      if hasChild s idx (getNode s l).commit.hash then s
      else modifyNode s idx (fun n => { n with children := l :: n.children })
  | none => s

/-- Go `cn.Subject = "..."; cn.Hash = ""` (lines 247..248). -/
def walkElide (idx : Nat) (s : BuildState) : BuildState :=
  modifyNode s idx
    (fun n => { n with commit := { n.commit with subject := "...", hash := "" } })

/-- One iteration body of the main-line walk of `main` (lines 230..251),
up to but excluding the `delete`/emptiness check: intern the commit, set
`OnMaster`, tag `mainBranch` at `i = 0`, prepend `lastCn` as a child unless
already linked, then update `lastCn` (keep the node when it is needed or
first; otherwise turn it into the elision placeholder unless the previous
node already is one).  Returns the state, the node index `cn` and the new
`lastCn`. -/
def mainStep (mainBranch : Branch) (i : Nat) (c : Commit) (lastCn : Option Nat)
    (s : BuildState) : BuildState × Nat × Option Nat :=
  match internNode s c with
  | (s1, idx, _ok) =>
      let s4 := walkLink lastCn idx (walkTag mainBranch i idx (walkMarkMaster idx s1))
      if s4.mNeeded.contains c.hash || i == 0 then (s4, idx, some idx)
      else if lastSubject s4 lastCn != "..." then
        (walkElide idx s4, idx, some idx)
      else (s4, idx, lastCn)

/-- Mirrors the main-line loop of `main` (lines 229..256): run `mainStep`,
delete the hash from `mNeeded`, and break out of the loop as soon as
`mNeeded` is empty.  Returns the final state together with the final value
of the shared variable `cn` (the root handed to the renderer; `none` models
the Go `nil` pointer). -/
def mainWalkAux (mainBranch : Branch) :
    List Commit → Nat → Option Nat → Option Nat → BuildState → BuildState × Option Nat
  | [], _, _, gcn, s => (s, gcn)
  | c :: rest, i, lastCn, _gcn, s =>
      match mainStep mainBranch i c lastCn s with
      | (s1, idx, lastCn1) =>
          let s2 := { s1 with mNeeded := deleteNeeded s1.mNeeded c.hash }
          if s2.mNeeded.isEmpty then (s2, some idx)
          else mainWalkAux mainBranch rest (i + 1) lastCn1 (some idx) s2

/-- The whole graph-building part of `main` (lines 181..256): branch phase
followed by the main-line walk, starting from an empty heap.  Returns the
final state and the root node (`none` models a `nil` root). -/
def buildGraph (branches : List Branch) (mainBranchName : String)
    (mCommits : List Commit) (fetch : String → List Commit) :
    BuildState × Option Nat :=
  match branchPhase mCommits mainBranchName fetch branches ⟨"", false⟩ none initState with
  | (s, mainBranch, gcn) => mainWalkAux mainBranch mCommits 0 none gcn s

/-- Rendered tree as produced through the `treeprint` interface: a node has
an optional meta string (from `AddMetaBranch`), a display value and ordered
child subtrees. -/
inductive RTree where
  | node : Option String → String → List RTree → RTree
deriving Repr

/-- Mirrors `color.New(color.FgGreen).Sprint`. -/
def colorGreen (str : String) : String :=
  "\x1b[32m" ++ str ++ "\x1b[0m"

/-- The meta-string loop of `ToTree` (lines 125..135): branch names joined by
", ", the current branch rendered green. -/
def metaOfAux : List Branch → Nat → String
  | [], _ => ""
  | b :: rest, i =>
      (if i != 0 then ", " else "")
        ++ (if b.current then colorGreen b.name else b.name)
        ++ metaOfAux rest (i + 1)

def metaOf (bs : List Branch) : String := metaOfAux bs 0

/-- The display label of `ToTree` (lines 120..123).  Go `cn.Hash[:8]` panics
when the hash has fewer than 8 bytes; real hashes have 40. -/
def renderData (n : CommitNode) : String :=
  if n.commit.hash != "" then
    n.commit.subject ++ " (" ++ n.commit.author ++ ", " ++ (n.commit.hash.take 8) ++ ")"
  else n.commit.subject

/-- The label of the junction marker branch in `ToTree` (line 146). -/
def junctionMark : String := "┐"

/-- The child loop of `ToTree` (lines 140..149), parameterized by the
recursive rendering of a child (`render`).  Returns the subtrees added
under the node's own entry (`childBranch`) and those added to the caller's
sink (`tree`). -/
def goChildren (render : Nat → List RTree) :
    Bool → Nat → Nat → List Nat → List RTree × List RTree
  | _, _, _, [] => ([], [])
  | inl, nch, i, c :: rest =>
      match goChildren render inl nch (i + 1) rest with
      | (under, par) =>
          if i == 0 && inl then (under, render c ++ par)
          else if i == nch - 1 then (render c ++ under, par)
          else (RTree.node none junctionMark (render c) :: under, par)

/-- Mirrors `CommitNode.ToTree` (lines 118..150) functionally: the returned
list is the sequence of subtrees that the call appends to the sink it was
given.  The node's own entry is added first (meta branch when it has tags);
its child loop may additionally append the first child's rendering to the
same sink (the inline continuation).  `fuel` bounds recursion depth: Go
recursion is unbounded and would not return on a cyclic graph. -/
def toTreeAux (s : BuildState) : Nat → Nat → List RTree
  | 0, _ => []
  | fuel + 1, idx =>
      let n := getNode s idx
      let inl := n.branches.isEmpty || n.commit.onMaster
      match goChildren (toTreeAux s fuel) inl n.children.length 0 n.children with
      | (under, par) =>
          RTree.node (if n.branches.isEmpty then none else some (metaOf n.branches))
            (renderData n) under :: par

/-- Hands the root to the renderer (lines 257..259).  A `none` root models
the Go `nil` pointer: `cn.ToTree(tree)` then dereferences `nil` and panics,
so no rendered output exists. -/
def renderForest (s : BuildState) (root : Option Nat) : Option (List RTree) :=
  root.map (fun r => toTreeAux s (s.nodes.size + 1) r)

/-- The pure core of `main`: build the graph from the listed branches and
commit histories and render it. -/
def runPipeline (branches : List Branch) (mainBranchName : String)
    (mCommits : List Commit) (fetch : String → List Commit) : Option (List RTree) :=
  match buildGraph branches mainBranchName mCommits fetch with
  | (s, root) => renderForest s root

/-- Results of the external `git` invocations that `getMainBranchName`
performs: the line lists of `git remote`, `git config --get
init.defaultBranch`, and `git symbolic-ref refs/remotes/NAME/HEAD` for a
given remote name.  `Except.error` models a failed invocation. -/
structure GitEnv where
  remote : Except String (List String)
  configDefaultBranch : Except String (List String)
  symbolicRef : String → Except String (List String)

/-- Go `s[lastSlash+1:]` where `lastSlash = strings.LastIndexByte(s, '/')`:
the suffix after the last slash, or the whole string when there is none. -/
def suffixAfterLastSlash (str : String) : String :=
  ((str.toList.reverse.takeWhile (fun ch => ch ≠ '/')).reverse).asString

/-- Mirrors `getMainBranchName` (lines 63..87) over a `GitEnv`. -/
def getMainBranchName (env : GitEnv) : Except String String :=
  match env.remote with
  | Except.error e => Except.error e
  | Except.ok lines =>
      if lines.length < 1 then
        match env.configDefaultBranch with
        | Except.error _ => Except.ok "master"
        | Except.ok defBranchLines =>
            if defBranchLines.length != 1 then Except.ok "master"
            else Except.ok (defBranchLines.headD "").trim
      else
        match env.symbolicRef (lines.headD "") with
        | Except.error e => Except.error e
        | Except.ok symRefLines =>
            if symRefLines.length != 1 then
              Except.error ("expected one line for symbolic-ref for remote " ++ lines.headD "")
            else Except.ok (suffixAfterLastSlash (symRefLines.headD ""))

/-- The pure loop of `listBranches` (lines 48..58) over the output lines of
`git branch`: drop the two-byte status column, skip detached-HEAD entries,
and read the current marker from column 0.  Go indexes `line[2:]` and
`line[0]` directly and would panic on lines shorter than 2 bytes; `git
branch` lines always carry the two-byte prefix. -/
def listBranchesParse : List String → List Branch
  | [] => []
  | line :: rest =>
      let name := line.drop 2
      if name.startsWith "(HEAD detached at" then listBranchesParse rest
      else ⟨name, line.get? 0 == some '*'⟩ :: listBranchesParse rest

/-! Basic lemmas about the state operations. -/

theorem cns_modifyNode (s : BuildState) (i : Nat) (f : CommitNode → CommitNode) :
    (modifyNode s i f).cns = s.cns := rfl

theorem mNeeded_modifyNode (s : BuildState) (i : Nat) (f : CommitNode → CommitNode) :
    (modifyNode s i f).mNeeded = s.mNeeded := rfl

theorem size_modifyNode (s : BuildState) (i : Nat) (f : CommitNode → CommitNode) :
    (modifyNode s i f).nodes.size = s.nodes.size := Array.size_modify s.nodes i f

theorem getNode_modifyNode (s : BuildState) (i : Nat) (f : CommitNode → CommitNode) (j : Nat) :
    getNode (modifyNode s i f) j =
      if i = j ∧ j < s.nodes.size then f (getNode s j) else getNode s j := by
  unfold getNode modifyNode Array.getD
  simp only [Array.size_modify]
  by_cases hj : j < s.nodes.size
  · simp only [hj, dif_pos, and_true]
    by_cases hij : i = j <;> simp [hij, Array.getElem_modify]
  · simp [hj]

theorem internNode_found (s : BuildState) (c : Commit) (i : Nat)
    (h : lookupCns s c.hash = some i) : internNode s c = (s, i, true) := by
  unfold internNode; rw [h]

theorem internNode_fresh (s : BuildState) (c : Commit)
    (h : lookupCns s c.hash = none) :
    internNode s c =
      ({ s with
          nodes := s.nodes.push ⟨c, [], []⟩,
          cns := (c.hash, s.nodes.size) :: s.cns }, s.nodes.size, false) := by
  unfold internNode; rw [h]

theorem getD_push (a : Array CommitNode) (x : CommitNode) (j : Nat) :
    (a.push x).getD j default =
      if j < a.size then a.getD j default else if j = a.size then x else default := by
  unfold Array.getD
  simp only [Array.size_push]
  by_cases hj : j < a.size
  · have hj1 : j < a.size + 1 := Nat.lt_succ_of_lt hj
    simp [hj, hj1, Array.getElem_push]
  · by_cases he : j = a.size
    · subst he
      simp [Array.getElem_push]
    · have hj1 : ¬ j < a.size + 1 := by omega
      simp [hj, he, hj1]

theorem contains_iff_mem (l : List String) (a : String) : l.contains a = true ↔ a ∈ l := by
  induction l with
  | nil => simp
  | cons b bs ih =>
      simp only [List.contains_cons, Bool.or_eq_true, beq_iff_eq, List.mem_cons, ih]

theorem lookupCns_isSome (s : BuildState) (h : String) :
    (lookupCns s h).isSome = (s.cns.map Prod.fst).contains h := by
  unfold lookupCns
  induction s.cns with
  | nil => simp
  | cons p ps ih =>
      by_cases hp : p.1 = h
      · simp [List.find?, hp]
      · have hpb : (p.1 == h) = false := beq_eq_false_iff_ne.mpr hp
        have hhb : (h == p.1) = false := beq_eq_false_iff_ne.mpr (Ne.symm hp)
        simp [List.find?, hpb, hhb, ih]

/-! Claim C8: behaviour of the builder on an empty repository. -/

/-- C8: when the main-line commit list is empty and no branch scan produced a
node, the code does NOT fail gracefully: the graph builder hands a `nil`
root (`none`) to the renderer, so `cn.ToTree(tree)` in `main` dereferences a
nil pointer and the rendering is a panic (`runPipeline` yields `none`).
This evaluates the code at the failing input of the claim. -/
theorem empty_repo_nil_root :
    (buildGraph [] "master" [] (fun _ => [])).2 = none
    ∧ runPipeline [] "master" [] (fun _ => []) = none :=
  ⟨rfl, rfl⟩

/-! Claim C9: main-branch-name resolution. -/

/-- Environment in which a remote exists but its HEAD symbolic reference
cannot be resolved. -/
def envSymRefFails : GitEnv :=
  ⟨Except.ok ["origin"], Except.ok ["main"], fun _ => Except.error "symbolic-ref failed"⟩

/-- C9 counterexample: with a remote present and a failing
`git symbolic-ref`, `getMainBranchName` returns an error instead of falling
back to the configured default branch name (which is available here) or to
the hardcoded name, refuting the claim that every combination of failing
resolution steps still yields a branch name. -/
theorem main_branch_name_fallback_cex :
    getMainBranchName envSymRefFails = Except.error "symbolic-ref failed" := rfl

/-- C9 (amended): the fallback chain is non-fatal only on the no-remote
path: when `git remote` reports no remotes, resolution always returns a
name (falling back through the `init.defaultBranch` config to the
hardcoded "master"); but when a remote exists, a failure of the remote-HEAD
symbolic-ref lookup is returned as an error, with no fallback. -/
theorem main_branch_name_fallback_amended (env : GitEnv) (lines : List String)
    (hrem : env.remote = Except.ok lines) :
    (lines = [] →
      (∃ nm, getMainBranchName env = Except.ok nm)
      ∧ (∀ e, env.configDefaultBranch = Except.error e →
          getMainBranchName env = Except.ok "master"))
    ∧ (∀ r rest e, lines = r :: rest → env.symbolicRef r = Except.error e →
        getMainBranchName env = Except.error e) := by
  constructor
  · intro hnil
    subst hnil
    unfold getMainBranchName
    rw [hrem]
    simp only [List.length_nil, Nat.zero_lt_one, if_pos]
    constructor
    · cases hc : env.configDefaultBranch with
      | error e => exact ⟨"master", rfl⟩
      | ok l =>
          by_cases hl : l.length != 1
          · exact ⟨"master", by simp [hl]⟩
          · exact ⟨(l.headD "").trim, by simp [hl]⟩
    · intro e hc
      rw [hc]
  · intro r rest e hcons hsym
    subst hcons
    unfold getMainBranchName
    rw [hrem]
    simp only [List.length_cons, List.headD_cons]
    rw [if_neg (by omega), hsym]

/-- C9 witness: instantiates the amended theorem at an environment with no
remotes and a failing config lookup, which still resolves to "master". -/
theorem main_branch_name_fallback_witness :
    (GitEnv.remote ⟨Except.ok [], Except.error "no config", fun _ => Except.error "x"⟩
        = Except.ok [])
    ∧ getMainBranchName ⟨Except.ok [], Except.error "no config", fun _ => Except.error "x"⟩
        = Except.ok "master" :=
  ⟨rfl,
    (main_branch_name_fallback_amended
      ⟨Except.ok [], Except.error "no config", fun _ => Except.error "x"⟩ [] rfl).1 rfl
      |>.2 "no config" rfl⟩

/-! Claim C7: determinism of the pipeline. -/

/-- C7: the pipeline is deterministic: two runs over identical branch lists,
main branch name, main-line commits and per-ref commit listings produce
identical rendered trees.  The embedding is faithful on this point because
the Go code never iterates over a map (`cns`, `mMap` and `mNeeded` are only
used for lookup, membership, insertion, deletion and emptiness tests), so
branch-tag order and child order derive from input sequence order alone. -/
theorem pipeline_deterministic (b1 b2 : List Branch) (n1 n2 : String)
    (m1 m2 : List Commit) (f1 f2 : String → List Commit)
    (hb : b1 = b2) (hn : n1 = n2) (hm : m1 = m2) (hf : f1 = f2) :
    runPipeline b1 n1 m1 f1 = runPipeline b2 n2 m2 f2 := by
  subst hb; subst hn; subst hm; subst hf; rfl

/-- C7 witness: two runs on the same concrete input agree. -/
theorem pipeline_deterministic_witness :
    ([⟨"feature", true⟩] = ([⟨"feature", true⟩] : List Branch))
    ∧ runPipeline [⟨"feature", true⟩] "master"
        [mkCommit "c5" "au" "s5", mkCommit "c1" "au" "s1"]
        (fun nm => if nm == "feature" then [mkCommit "c2" "au" "s2", mkCommit "c1" "au" "s1"] else [])
      = runPipeline [⟨"feature", true⟩] "master"
        [mkCommit "c5" "au" "s5", mkCommit "c1" "au" "s1"]
        (fun nm => if nm == "feature" then [mkCommit "c2" "au" "s2", mkCommit "c1" "au" "s1"] else []) :=
  ⟨rfl, pipeline_deterministic _ _ _ _ _ _ _ _ rfl rfl rfl rfl⟩

/-! Claim C6: fan-out layout of the renderer. -/

/-- Closed form of the `ToTree` child loop from position `i` when the inline
case is impossible (either `i ≥ 1`, or the node is not inline-eligible):
every child but the last goes under a fresh junction node, the last child's
rendering is appended directly under the node's branch, and nothing is
added to the caller's sink. -/
theorem goChildren_closed (render : Nat → List RTree) (inl : Bool) (nch : Nat) :
    ∀ (l : List Nat) (i : Nat), (1 ≤ i ∨ inl = false) → i + l.length = nch →
    goChildren render inl nch i l =
      (l.dropLast.map (fun c => RTree.node none junctionMark (render c)) ++
        (match l.getLast? with
         | some c => render c
         | none => []), []) := by
  intro l
  induction l with
  | nil => intro i _ _; rfl
  | cons c rest ih =>
      intro i hi hlen
      simp only [List.length_cons] at hlen
      have hrec := ih (i + 1) (Or.inl (by omega)) (by omega)
      unfold goChildren
      rw [hrec]
      have hnotinline : (i == 0 && inl) = false := by
        rcases hi with hi | hi
        · have h0 : (i == 0) = false := by
            apply beq_eq_false_iff_ne.mpr
            omega
          simp [h0]
        · simp [hi]
      simp only [hnotinline, Bool.false_eq_true, if_false]
      cases rest with
      | nil =>
          simp only [List.length_nil] at hlen
          have hlast : (i == nch - 1) = true := beq_iff_eq.mpr (by omega)
          simp [hlast]
      | cons r rs =>
          have hlast : (i == nch - 1) = false := by
            apply beq_eq_false_iff_ne.mpr
            simp only [List.length_cons] at hlen
            omega
          simp [hlast]

/-- C6: for a node with a non-empty ordered child list, the first child is
rendered at the caller's level (inline) exactly when the node has no branch
tags or is a main-line node; every child that is neither that inline first
child nor the last child goes under a freshly inserted junction node labeled
"┐" beneath the node's own entry; and the last child (when not inline) is
rendered directly under the node's own entry without a junction marker. -/
theorem toTree_fanout_layout (s : BuildState) (fuel : Nat) (idx : Nat)
    (c0 : Nat) (rest : List Nat)
    (h : (getNode s idx).children = c0 :: rest) :
    toTreeAux s (fuel + 1) idx =
      RTree.node
        (if (getNode s idx).branches.isEmpty then none
         else some (metaOf (getNode s idx).branches))
        (renderData (getNode s idx))
        (if (getNode s idx).branches.isEmpty || (getNode s idx).commit.onMaster then
           rest.dropLast.map (fun c => RTree.node none junctionMark (toTreeAux s fuel c)) ++
             (match rest.getLast? with
              | some c => toTreeAux s fuel c
              | none => [])
         else
           (c0 :: rest).dropLast.map
               (fun c => RTree.node none junctionMark (toTreeAux s fuel c)) ++
             (match (c0 :: rest).getLast? with
              | some c => toTreeAux s fuel c
              | none => []))
      :: (if (getNode s idx).branches.isEmpty || (getNode s idx).commit.onMaster then
            toTreeAux s fuel c0
          else []) := by
  show (match goChildren (toTreeAux s fuel)
          ((getNode s idx).branches.isEmpty || (getNode s idx).commit.onMaster)
          (getNode s idx).children.length 0 (getNode s idx).children with
        | (under, par) =>
            RTree.node
              (if (getNode s idx).branches.isEmpty then none
               else some (metaOf (getNode s idx).branches))
              (renderData (getNode s idx)) under :: par) = _
  rw [h]
  cases hinl : ((getNode s idx).branches.isEmpty || (getNode s idx).commit.onMaster) with
  | false =>
      rw [goChildren_closed (toTreeAux s fuel) false (c0 :: rest).length (c0 :: rest) 0
        (Or.inr rfl) (by simp)]
      simp
  | true =>
      unfold goChildren
      rw [goChildren_closed (toTreeAux s fuel) true (c0 :: rest).length rest 1
        (Or.inl (by omega)) (by simp only [List.length_cons]; omega)]
      simp

/-- Concrete state for the C6 witness: a tagged non-main node 0 with three
children. -/
def stateC6 : BuildState :=
  ⟨#[⟨mkCommit "h0" "au" "s0", [⟨"b", false⟩], [1, 2, 3]⟩,
     ⟨mkCommit "h1" "au" "s1", [], []⟩,
     ⟨mkCommit "h2" "au" "s2", [], []⟩,
     ⟨mkCommit "h3" "au" "s3", [], []⟩], [], []⟩

/-- C6 witness: instantiates the layout theorem at `stateC6`, where node 0
is a divergence tip (tagged, not on main): children 1 and 2 go under
junction markers, child 3 directly under the node. -/
theorem toTree_fanout_layout_witness :
    (getNode stateC6 0).children = 1 :: [2, 3]
    ∧ toTreeAux stateC6 2 0 =
      RTree.node
        (if (getNode stateC6 0).branches.isEmpty then none
         else some (metaOf (getNode stateC6 0).branches))
        (renderData (getNode stateC6 0))
        (if (getNode stateC6 0).branches.isEmpty || (getNode stateC6 0).commit.onMaster then
           [2, 3].dropLast.map (fun c => RTree.node none junctionMark (toTreeAux stateC6 1 c)) ++
             (match [2, 3].getLast? with
              | some c => toTreeAux stateC6 1 c
              | none => [])
         else
           (1 :: [2, 3]).dropLast.map
               (fun c => RTree.node none junctionMark (toTreeAux stateC6 1 c)) ++
             (match (1 :: [2, 3]).getLast? with
              | some c => toTreeAux stateC6 1 c
              | none => []))
      :: (if (getNode stateC6 0).branches.isEmpty || (getNode stateC6 0).commit.onMaster then
            toTreeAux stateC6 1 1
          else []) :=
  ⟨rfl, toTree_fanout_layout stateC6 1 0 1 [2, 3] rfl⟩

/-! Claim C1: stop condition of the branch scan. -/

theorem cns_scanTag (b : Branch) (i idx : Nat) (s : BuildState) :
    (scanTag b i idx s).cns = s.cns := by
  unfold scanTag; split <;> rfl

theorem mNeeded_scanTag (b : Branch) (i idx : Nat) (s : BuildState) :
    (scanTag b i idx s).mNeeded = s.mNeeded := by
  unfold scanTag; split <;> rfl

theorem cns_scanLink (lastCn : Option Nat) (idx : Nat) (s : BuildState) :
    (scanLink lastCn idx s).cns = s.cns := by
  unfold scanLink; cases lastCn <;> rfl

theorem mNeeded_scanLink (lastCn : Option Nat) (idx : Nat) (s : BuildState) :
    (scanLink lastCn idx s).mNeeded = s.mNeeded := by
  unfold scanLink; cases lastCn <;> rfl

/-- The state produced by interning a commit that was not yet in the table. -/
def internFreshState (s : BuildState) (c : Commit) : BuildState :=
  { s with
      nodes := s.nodes.push ⟨c, [], []⟩,
      cns := (c.hash, s.nodes.size) :: s.cns }

theorem internNode_fresh_eq (s : BuildState) (c : Commit)
    (h : lookupCns s c.hash = none) :
    internNode s c = (internFreshState s c, s.nodes.size, false) := by
  unfold internNode internFreshState; rw [h]

theorem scanBranchAux_cons_found (mCommits : List Commit) (b : Branch) (c : Commit)
    (rest : List Commit) (i : Nat) (lastCn : Option Nat) (s : BuildState) (idx0 : Nat)
    (hl : lookupCns s c.hash = some idx0) :
    scanBranchAux mCommits b (c :: rest) i lastCn s =
      (scanLink lastCn idx0 (scanTag b i idx0 s), some idx0) := by
  show (match internNode s c with
        | (s1, idx, ok) =>
            let s3 := scanLink lastCn idx (scanTag b i idx s1)
            if ok then (s3, some idx)
            else if mMapContains mCommits c.hash then
              ({ s3 with mNeeded := insertNeeded s3.mNeeded c.hash }, some idx)
            else scanBranchAux mCommits b rest (i + 1) (some idx) s3) = _
  rw [internNode_found s c idx0 hl]
  rfl

theorem scanBranchAux_cons_fresh_stop (mCommits : List Commit) (b : Branch) (c : Commit)
    (rest : List Commit) (i : Nat) (lastCn : Option Nat) (s : BuildState)
    (hl : lookupCns s c.hash = none) (hm : mMapContains mCommits c.hash = true) :
    scanBranchAux mCommits b (c :: rest) i lastCn s =
      (let s3 := scanLink lastCn s.nodes.size (scanTag b i s.nodes.size (internFreshState s c))
       ({ s3 with mNeeded := insertNeeded s3.mNeeded c.hash }, some s.nodes.size)) := by
  show (match internNode s c with
        | (s1, idx, ok) =>
            let s3 := scanLink lastCn idx (scanTag b i idx s1)
            if ok then (s3, some idx)
            else if mMapContains mCommits c.hash then
              ({ s3 with mNeeded := insertNeeded s3.mNeeded c.hash }, some idx)
            else scanBranchAux mCommits b rest (i + 1) (some idx) s3) = _
  rw [internNode_fresh_eq s c hl]
  simp only [hm]
  rfl

theorem scanBranchAux_cons_fresh_go (mCommits : List Commit) (b : Branch) (c : Commit)
    (rest : List Commit) (i : Nat) (lastCn : Option Nat) (s : BuildState)
    (hl : lookupCns s c.hash = none) (hm : mMapContains mCommits c.hash = false) :
    scanBranchAux mCommits b (c :: rest) i lastCn s =
      scanBranchAux mCommits b rest (i + 1) (some s.nodes.size)
        (scanLink lastCn s.nodes.size (scanTag b i s.nodes.size (internFreshState s c))) := by
  show (match internNode s c with
        | (s1, idx, ok) =>
            let s3 := scanLink lastCn idx (scanTag b i idx s1)
            if ok then (s3, some idx)
            else if mMapContains mCommits c.hash then
              ({ s3 with mNeeded := insertNeeded s3.mNeeded c.hash }, some idx)
            else scanBranchAux mCommits b rest (i + 1) (some idx) s3) = _
  rw [internNode_fresh_eq s c hl]
  simp only [hm]
  rfl

theorem contains_congr (l1 l2 : List String) (x : String) (h : x ∈ l1 ↔ x ∈ l2) :
    l1.contains x = l2.contains x := by
  cases hc : l2.contains x with
  | true => exact (contains_iff_mem l1 x).mpr (h.mpr ((contains_iff_mem l2 x).mp hc))
  | false =>
      cases hc1 : l1.contains x with
      | true =>
          have hx2 : x ∈ l2 := h.mp ((contains_iff_mem l1 x).mp hc1)
          rw [(contains_iff_mem l2 x).mpr hx2] at hc
          exact absurd hc (by simp)
      | false => rfl

/-- Position of the first commit at which the branch scan stops, described
exactly as the claim does: the first commit whose id is among the hashes
already interned (the initial table keys together with the hashes of the
commits already processed by this scan), or whose id is on the main line. -/
def stopIndex (mCommits : List Commit) : List String → List Commit → Option Nat
  | _, [] => none
  | keys, c :: rest =>
      if keys.contains c.hash || mMapContains mCommits c.hash then some 0
      else (stopIndex mCommits (c.hash :: keys) rest).map (fun k => k + 1)

/-- C1: the branch scan processes exactly the commits up to and including
the first one hitting a termination test (the scan over the full list
equals the scan over that prefix); at the stopping commit the
already-visited test wins over the main-membership test (`mNeeded` is
extended exactly when the stop was caused by main-membership alone); and
every interning-table entry after the scan is either an old entry or keyed
by a hash of the processed prefix (no node is created past the stop). -/
theorem branch_scan_stops_at_first_hit (mCommits : List Commit) (b : Branch) :
    ∀ (cs : List Commit) (s : BuildState) (k i : Nat) (lastCn : Option Nat),
    stopIndex mCommits (s.cns.map Prod.fst) cs = some k →
    scanBranchAux mCommits b cs i lastCn s
        = scanBranchAux mCommits b (cs.take (k + 1)) i lastCn s
    ∧ (scanBranchAux mCommits b cs i lastCn s).1.mNeeded =
        (if (s.cns.map Prod.fst ++ (cs.take k).map (fun c => c.hash)).contains
              ((cs.getD k default).hash) = true
         then s.mNeeded
         else insertNeeded s.mNeeded ((cs.getD k default).hash))
    ∧ ∀ p ∈ (scanBranchAux mCommits b cs i lastCn s).1.cns,
        p ∈ s.cns ∨ p.1 ∈ (cs.take (k + 1)).map (fun c => c.hash) := by
  intro cs
  induction cs with
  | nil => intro s k i lastCn hstop; exact absurd hstop (by simp [stopIndex])
  | cons c rest ih =>
      intro s k i lastCn hstop
      unfold stopIndex at hstop
      cases hl : lookupCns s c.hash with
      | some idx0 =>
          have hkeys : (s.cns.map Prod.fst).contains c.hash = true := by
            rw [← lookupCns_isSome, hl]; rfl
          rw [hkeys] at hstop
          simp only [Bool.true_or, if_pos] at hstop
          have hk0 : k = 0 := (Option.some.inj hstop).symm
          subst hk0
          have hrun := scanBranchAux_cons_found mCommits b c rest i lastCn s idx0 hl
          have hrun1 : scanBranchAux mCommits b ((c :: rest).take 1) i lastCn s =
              (scanLink lastCn idx0 (scanTag b i idx0 s), some idx0) :=
            scanBranchAux_cons_found mCommits b c [] i lastCn s idx0 hl
          refine ⟨hrun.trans hrun1.symm, ?_, ?_⟩
          · rw [hrun]
            simp only [List.take_zero, List.map_nil, List.append_nil, List.getD_cons_zero]
            rw [if_pos hkeys]
            show (scanLink lastCn idx0 (scanTag b i idx0 s)).mNeeded = s.mNeeded
            rw [mNeeded_scanLink, mNeeded_scanTag]
          · rw [hrun]
            intro p hp
            have hp2 : p ∈ (scanLink lastCn idx0 (scanTag b i idx0 s)).cns := hp
            rw [cns_scanLink, cns_scanTag] at hp2
            exact Or.inl hp2
      | none =>
          have hkeys : (s.cns.map Prod.fst).contains c.hash = false := by
            rw [← lookupCns_isSome, hl]; rfl
          rw [hkeys] at hstop
          simp only [Bool.false_or] at hstop
          cases hm : mMapContains mCommits c.hash with
          | true =>
              rw [hm] at hstop
              simp only [if_pos] at hstop
              have hk0 : k = 0 := (Option.some.inj hstop).symm
              subst hk0
              have hrun := scanBranchAux_cons_fresh_stop mCommits b c rest i lastCn s hl hm
              have hrun1 := scanBranchAux_cons_fresh_stop mCommits b c [] i lastCn s hl hm
              refine ⟨hrun.trans hrun1.symm, ?_, ?_⟩
              · rw [hrun]
                simp only [List.take_zero, List.map_nil, List.append_nil, List.getD_cons_zero]
                rw [if_neg (by rw [hkeys]; exact Bool.false_ne_true)]
                show insertNeeded
                    (scanLink lastCn s.nodes.size
                      (scanTag b i s.nodes.size (internFreshState s c))).mNeeded c.hash
                  = insertNeeded s.mNeeded c.hash
                rw [mNeeded_scanLink, mNeeded_scanTag]
                rfl
              · rw [hrun]
                intro p hp
                show p ∈ s.cns ∨ p.1 ∈ (c :: List.take 0 rest).map (fun c => c.hash)
                have hp2 : p ∈ (scanLink lastCn s.nodes.size
                    (scanTag b i s.nodes.size (internFreshState s c))).cns := hp
                rw [cns_scanLink, cns_scanTag] at hp2
                rcases List.mem_cons.mp hp2 with hpc | hps
                · right; rw [hpc]; simp
                · exact Or.inl hps
          | false =>
              rw [hm] at hstop
              simp only [Bool.false_eq_true, if_false] at hstop
              cases hres : stopIndex mCommits (c.hash :: s.cns.map Prod.fst) rest with
              | none => rw [hres] at hstop; exact absurd hstop (by simp)
              | some k0 =>
                  rw [hres] at hstop
                  have hkk : k = k0 + 1 := (Option.some.inj hstop).symm
                  subst hkk
                  set s3 := scanLink lastCn s.nodes.size
                      (scanTag b i s.nodes.size (internFreshState s c)) with hs3
                  have hcns3 : s3.cns = (c.hash, s.nodes.size) :: s.cns := by
                    rw [hs3, cns_scanLink, cns_scanTag]; rfl
                  have hneed3 : s3.mNeeded = s.mNeeded := by
                    rw [hs3, mNeeded_scanLink, mNeeded_scanTag]; rfl
                  have hstop3 : stopIndex mCommits (s3.cns.map Prod.fst) rest = some k0 := by
                    rw [hcns3]; exact hres
                  have hrec := ih s3 k0 (i + 1) (some s.nodes.size) hstop3
                  have hrun := scanBranchAux_cons_fresh_go mCommits b c rest i lastCn s hl hm
                  have hrun1 : scanBranchAux mCommits b ((c :: rest).take (k0 + 1 + 1)) i lastCn s
                      = scanBranchAux mCommits b (rest.take (k0 + 1)) (i + 1)
                          (some s.nodes.size) s3 :=
                    scanBranchAux_cons_fresh_go mCommits b c (rest.take (k0 + 1)) i lastCn s hl hm
                  refine ⟨?_, ?_, ?_⟩
                  · rw [hrun, hrun1]
                    exact hrec.1
                  · rw [hrun, hrec.2.1, hneed3]
                    have hcond : ((s3.cns.map Prod.fst
                            ++ (rest.take k0).map (fun c => c.hash)).contains
                          ((rest.getD k0 default).hash))
                        = ((s.cns.map Prod.fst
                            ++ ((c :: rest).take (k0 + 1)).map (fun c => c.hash)).contains
                          (((c :: rest).getD (k0 + 1) default).hash)) := by
                      rw [hcns3]
                      simp only [List.take_succ_cons, List.map_cons, List.getD_cons_succ]
                      apply contains_congr
                      simp only [List.mem_append, List.mem_cons]
                      tauto
                    rw [hcond]
                    simp only [List.getD_cons_succ]
                  · intro p hp
                    rw [hrun] at hp
                    rcases hrec.2.2 p hp with hin | hkey
                    · rw [hcns3] at hin
                      rcases List.mem_cons.mp hin with hpc | hps
                      · right; rw [hpc]; simp
                      · exact Or.inl hps
                    · right
                      simp only [List.take_succ_cons, List.map_cons, List.mem_cons]
                      exact Or.inr hkey

/-- C1 witness: a two-commit branch whose second commit is on the main line
stops at index 1 via the main-membership test and records it in `mNeeded`. -/
theorem branch_scan_stops_at_first_hit_witness :
    stopIndex [mkCommit "m1" "au" "sm"] (initState.cns.map Prod.fst)
        [mkCommit "x" "au" "sx", mkCommit "m1" "au" "sm"] = some 1
    ∧ (scanBranchAux [mkCommit "m1" "au" "sm"] ⟨"b", false⟩
          [mkCommit "x" "au" "sx", mkCommit "m1" "au" "sm"] 0 none initState
        = scanBranchAux [mkCommit "m1" "au" "sm"] ⟨"b", false⟩
          ([mkCommit "x" "au" "sx", mkCommit "m1" "au" "sm"].take 2) 0 none initState
      ∧ (scanBranchAux [mkCommit "m1" "au" "sm"] ⟨"b", false⟩
          [mkCommit "x" "au" "sx", mkCommit "m1" "au" "sm"] 0 none initState).1.mNeeded =
          (if (initState.cns.map Prod.fst ++
                (([mkCommit "x" "au" "sx", mkCommit "m1" "au" "sm"].take 1).map
                  (fun c => c.hash))).contains
              (([mkCommit "x" "au" "sx", mkCommit "m1" "au" "sm"].getD 1 default).hash) = true
           then initState.mNeeded
           else insertNeeded initState.mNeeded
              (([mkCommit "x" "au" "sx", mkCommit "m1" "au" "sm"].getD 1 default).hash))
      ∧ ∀ p ∈ (scanBranchAux [mkCommit "m1" "au" "sm"] ⟨"b", false⟩
            [mkCommit "x" "au" "sx", mkCommit "m1" "au" "sm"] 0 none initState).1.cns,
          p ∈ initState.cns
          ∨ p.1 ∈ (([mkCommit "x" "au" "sx", mkCommit "m1" "au" "sm"].take 2).map
              (fun c => c.hash))) :=
  ⟨by decide,
    branch_scan_stops_at_first_hit [mkCommit "m1" "au" "sm"] ⟨"b", false⟩
      [mkCommit "x" "au" "sx", mkCommit "m1" "au" "sm"] initState 1 0 none (by decide)⟩

/-! Claim C4: early termination of the main-line walk. -/

theorem cns_walkMarkMaster (idx : Nat) (s : BuildState) :
    (walkMarkMaster idx s).cns = s.cns := rfl

theorem mNeeded_walkMarkMaster (idx : Nat) (s : BuildState) :
    (walkMarkMaster idx s).mNeeded = s.mNeeded := rfl

theorem cns_walkTag (mb : Branch) (i idx : Nat) (s : BuildState) :
    (walkTag mb i idx s).cns = s.cns := by
  unfold walkTag; split <;> rfl

theorem mNeeded_walkTag (mb : Branch) (i idx : Nat) (s : BuildState) :
    (walkTag mb i idx s).mNeeded = s.mNeeded := by
  unfold walkTag; split <;> rfl

theorem cns_walkLink (lastCn : Option Nat) (idx : Nat) (s : BuildState) :
    (walkLink lastCn idx s).cns = s.cns := by
  cases lastCn with
  | none => rfl
  | some l =>
      show (if hasChild s idx (getNode s l).commit.hash then s
            else modifyNode s idx (fun n => { n with children := l :: n.children })).cns = s.cns
      split <;> rfl

theorem mNeeded_walkLink (lastCn : Option Nat) (idx : Nat) (s : BuildState) :
    (walkLink lastCn idx s).mNeeded = s.mNeeded := by
  cases lastCn with
  | none => rfl
  | some l =>
      show (if hasChild s idx (getNode s l).commit.hash then s
            else modifyNode s idx (fun n => { n with children := l :: n.children })).mNeeded
          = s.mNeeded
      split <;> rfl

theorem cns_walkElide (idx : Nat) (s : BuildState) :
    (walkElide idx s).cns = s.cns := rfl

theorem mNeeded_walkElide (idx : Nat) (s : BuildState) :
    (walkElide idx s).mNeeded = s.mNeeded := rfl

theorem mNeeded_internNode (s : BuildState) (c : Commit) :
    (internNode s c).1.mNeeded = s.mNeeded := by
  unfold internNode; cases lookupCns s c.hash <;> rfl

theorem lookupCns_internNode_self (s : BuildState) (c : Commit) :
    lookupCns (internNode s c).1 c.hash = some (internNode s c).2.1 := by
  unfold internNode
  cases hl : lookupCns s c.hash with
  | some i => exact hl
  | none => simp [lookupCns, List.find?]

/-- Projections of one main-walk step: the step never touches `mNeeded`, its
interning table is that of the intern call, and the node index it reports is
the interned index. -/
theorem mainStep_parts (mb : Branch) (i : Nat) (c : Commit) (lastCn : Option Nat)
    (s : BuildState) :
    (mainStep mb i c lastCn s).1.mNeeded = s.mNeeded
    ∧ (mainStep mb i c lastCn s).1.cns = (internNode s c).1.cns
    ∧ (mainStep mb i c lastCn s).2.1 = (internNode s c).2.1 := by
  unfold mainStep
  rcases hi : internNode s c with ⟨s1, idx, ok⟩
  have h1 : s1.mNeeded = s.mNeeded := by
    have := mNeeded_internNode s c; rw [hi] at this; exact this
  dsimp only
  split
  · refine ⟨?_, ?_, rfl⟩
    · rw [mNeeded_walkLink, mNeeded_walkTag, mNeeded_walkMarkMaster, h1]
    · rw [cns_walkLink, cns_walkTag, cns_walkMarkMaster]
  · split
    · refine ⟨?_, ?_, rfl⟩
      · rw [mNeeded_walkElide, mNeeded_walkLink, mNeeded_walkTag, mNeeded_walkMarkMaster, h1]
      · rw [cns_walkElide, cns_walkLink, cns_walkTag, cns_walkMarkMaster]
    · refine ⟨?_, ?_, rfl⟩
      · rw [mNeeded_walkLink, mNeeded_walkTag, mNeeded_walkMarkMaster, h1]
      · rw [cns_walkLink, cns_walkTag, cns_walkMarkMaster]

theorem cns_mainStep (mb : Branch) (i : Nat) (c : Commit) (lastCn : Option Nat)
    (s : BuildState) :
    (mainStep mb i c lastCn s).1.cns = (internNode s c).1.cns := by
  unfold mainStep
  rcases hi : internNode s c with ⟨s1, idx, ok⟩
  dsimp only
  split
  · rw [cns_walkLink, cns_walkTag, cns_walkMarkMaster]
  · split
    · rw [cns_walkElide, cns_walkLink, cns_walkTag, cns_walkMarkMaster]
    · rw [cns_walkLink, cns_walkTag, cns_walkMarkMaster]

theorem mainWalkAux_cons (mb : Branch) (c : Commit) (rest : List Commit) (i : Nat)
    (lastCn gcn : Option Nat) (s : BuildState) :
    mainWalkAux mb (c :: rest) i lastCn gcn s =
      (let t := mainStep mb i c lastCn s
       let s2 := { t.1 with mNeeded := deleteNeeded t.1.mNeeded c.hash }
       if s2.mNeeded.isEmpty then (s2, some t.2.1)
       else mainWalkAux mb rest (i + 1) t.2.2 (some t.2.1) s2) := rfl

/-- Index of the main-line commit at whose iteration `mNeeded` becomes empty
(the deletions of the processed prefix exhaust the set). -/
def emptyPoint : List String → List Commit → Option Nat
  | _, [] => none
  | needed, c :: rest =>
      let needed1 := deleteNeeded needed c.hash
      if needed1.isEmpty then some 0
      else (emptyPoint needed1 rest).map (fun k => k + 1)

/-- C4: each processed main-line commit's hash is deleted from
`neededFromMain` and the walk stops at the first iteration `k` at which the
set becomes empty, even when further main commits remain: the walk over the
full list equals the walk over `take (k+1)`, the final `mNeeded` is empty,
and the root handed back is the node interned for the commit processed in
the final iteration (`cs[k]`), which need not be the oldest main commit. -/
theorem main_walk_early_termination (mb : Branch) :
    ∀ (cs : List Commit) (s : BuildState) (k i : Nat) (lastCn gcn : Option Nat),
    emptyPoint s.mNeeded cs = some k →
    mainWalkAux mb cs i lastCn gcn s = mainWalkAux mb (cs.take (k + 1)) i lastCn gcn s
    ∧ (mainWalkAux mb cs i lastCn gcn s).1.mNeeded = []
    ∧ (mainWalkAux mb cs i lastCn gcn s).2 =
        lookupCns (mainWalkAux mb cs i lastCn gcn s).1 ((cs.getD k default).hash) := by
  intro cs
  induction cs with
  | nil => intro s k i lastCn gcn hstop; exact absurd hstop (by simp [emptyPoint])
  | cons c rest ih =>
      intro s k i lastCn gcn hstop
      unfold emptyPoint at hstop
      simp only [] at hstop
      have hneed2 : ({ (mainStep mb i c lastCn s).1 with
          mNeeded := deleteNeeded (mainStep mb i c lastCn s).1.mNeeded c.hash }).mNeeded
            = deleteNeeded s.mNeeded c.hash := by
        show deleteNeeded (mainStep mb i c lastCn s).1.mNeeded c.hash = _
        rw [(mainStep_parts mb i c lastCn s).1]
      cases he : (deleteNeeded s.mNeeded c.hash).isEmpty with
      | true =>
          rw [he] at hstop
          simp only [if_pos] at hstop
          have hk0 : k = 0 := (Option.some.inj hstop).symm
          subst hk0
          have hrun : mainWalkAux mb (c :: rest) i lastCn gcn s =
              ({ (mainStep mb i c lastCn s).1 with
                  mNeeded := deleteNeeded (mainStep mb i c lastCn s).1.mNeeded c.hash },
                some (mainStep mb i c lastCn s).2.1) := by
            rw [mainWalkAux_cons]
            show (if _ then _ else _) = _
            rw [if_pos (by rw [hneed2]; exact he)]
          have hrun1 : mainWalkAux mb ((c :: rest).take 1) i lastCn gcn s =
              ({ (mainStep mb i c lastCn s).1 with
                  mNeeded := deleteNeeded (mainStep mb i c lastCn s).1.mNeeded c.hash },
                some (mainStep mb i c lastCn s).2.1) := by
            rw [show (c :: rest).take 1 = [c] from rfl, mainWalkAux_cons]
            show (if _ then _ else _) = _
            rw [if_pos (by rw [hneed2]; exact he)]
          refine ⟨hrun.trans hrun1.symm, ?_, ?_⟩
          · rw [hrun, hneed2]
            exact List.isEmpty_iff.mp he
          · rw [hrun]
            show some (mainStep mb i c lastCn s).2.1 =
              lookupCns { (mainStep mb i c lastCn s).1 with
                  mNeeded := deleteNeeded (mainStep mb i c lastCn s).1.mNeeded c.hash }
                ((c :: rest).getD 0 default).hash
            have hcns : ({ (mainStep mb i c lastCn s).1 with
                mNeeded := deleteNeeded (mainStep mb i c lastCn s).1.mNeeded c.hash }).cns
                  = (internNode s c).1.cns := by
              show (mainStep mb i c lastCn s).1.cns = _
              exact cns_mainStep mb i c lastCn s
            show some (mainStep mb i c lastCn s).2.1 =
              (({ (mainStep mb i c lastCn s).1 with
                  mNeeded := deleteNeeded (mainStep mb i c lastCn s).1.mNeeded c.hash }).cns.find?
                (fun (p : String × Nat) => p.1 == ((c :: rest).getD 0 default).hash)).map
                (fun (p : String × Nat) => p.2)
            rw [hcns]
            rw [(mainStep_parts mb i c lastCn s).2.2]
            exact (lookupCns_internNode_self s c).symm
      | false =>
          rw [he] at hstop
          simp only [Bool.false_eq_true, if_false] at hstop
          cases hres : emptyPoint (deleteNeeded s.mNeeded c.hash) rest with
          | none => rw [hres] at hstop; exact absurd hstop (by simp)
          | some k0 =>
              rw [hres] at hstop
              have hkk : k = k0 + 1 := (Option.some.inj hstop).symm
              subst hkk
              have hstop2 : emptyPoint
                  ({ (mainStep mb i c lastCn s).1 with
                      mNeeded := deleteNeeded (mainStep mb i c lastCn s).1.mNeeded c.hash }).mNeeded
                  rest = some k0 := by
                rw [hneed2]; exact hres
              have hrec := ih _ k0 (i + 1) (mainStep mb i c lastCn s).2.2
                (some (mainStep mb i c lastCn s).2.1) hstop2
              have hrun : mainWalkAux mb (c :: rest) i lastCn gcn s =
                  mainWalkAux mb rest (i + 1) (mainStep mb i c lastCn s).2.2
                    (some (mainStep mb i c lastCn s).2.1)
                    { (mainStep mb i c lastCn s).1 with
                        mNeeded := deleteNeeded (mainStep mb i c lastCn s).1.mNeeded c.hash } := by
                rw [mainWalkAux_cons]
                show (if _ then _ else _) = _
                rw [if_neg (by rw [hneed2, he]; exact Bool.false_ne_true)]
              have hrun1 : mainWalkAux mb ((c :: rest).take (k0 + 1 + 1)) i lastCn gcn s =
                  mainWalkAux mb (rest.take (k0 + 1)) (i + 1) (mainStep mb i c lastCn s).2.2
                    (some (mainStep mb i c lastCn s).2.1)
                    { (mainStep mb i c lastCn s).1 with
                        mNeeded := deleteNeeded (mainStep mb i c lastCn s).1.mNeeded c.hash } := by
                rw [show (c :: rest).take (k0 + 1 + 1) = c :: rest.take (k0 + 1) from rfl,
                  mainWalkAux_cons]
                show (if _ then _ else _) = _
                rw [if_neg (by rw [hneed2, he]; exact Bool.false_ne_true)]
              refine ⟨?_, ?_, ?_⟩
              · rw [hrun, hrun1]; exact hrec.1
              · rw [hrun]; exact hrec.2.1
              · rw [hrun]
                simp only [List.getD_cons_succ]
                exact hrec.2.2

/-- C4 witness: with `mNeeded = ["h1"]` satisfied at index 1 of a
three-commit main line, the walk stops after two commits. -/
theorem main_walk_early_termination_witness :
    emptyPoint (BuildState.mNeeded ⟨#[], [], ["h1"]⟩)
        [mkCommit "h0" "au" "s0", mkCommit "h1" "au" "s1", mkCommit "h2" "au" "s2"] = some 1
    ∧ (mainWalkAux ⟨"m", false⟩
          [mkCommit "h0" "au" "s0", mkCommit "h1" "au" "s1", mkCommit "h2" "au" "s2"]
          0 none none ⟨#[], [], ["h1"]⟩
        = mainWalkAux ⟨"m", false⟩
          ([mkCommit "h0" "au" "s0", mkCommit "h1" "au" "s1", mkCommit "h2" "au" "s2"].take 2)
          0 none none ⟨#[], [], ["h1"]⟩
      ∧ (mainWalkAux ⟨"m", false⟩
          [mkCommit "h0" "au" "s0", mkCommit "h1" "au" "s1", mkCommit "h2" "au" "s2"]
          0 none none ⟨#[], [], ["h1"]⟩).1.mNeeded = []
      ∧ (mainWalkAux ⟨"m", false⟩
          [mkCommit "h0" "au" "s0", mkCommit "h1" "au" "s1", mkCommit "h2" "au" "s2"]
          0 none none ⟨#[], [], ["h1"]⟩).2 =
          lookupCns (mainWalkAux ⟨"m", false⟩
            [mkCommit "h0" "au" "s0", mkCommit "h1" "au" "s1", mkCommit "h2" "au" "s2"]
            0 none none ⟨#[], [], ["h1"]⟩).1
            (([mkCommit "h0" "au" "s0", mkCommit "h1" "au" "s1",
               mkCommit "h2" "au" "s2"].getD 1 default).hash)) :=
  ⟨by decide,
    main_walk_early_termination ⟨"m", false⟩
      [mkCommit "h0" "au" "s0", mkCommit "h1" "au" "s1", mkCommit "h2" "au" "s2"]
      ⟨#[], [], ["h1"]⟩ 1 0 none none (by decide)⟩

/-! Claim C2: interning uniqueness. -/

/-- Well-formedness of the interning table: each hash is a key at most once,
each arena index is a value at most once, and every value is a valid arena
index.  Together with `internNode` creating a node only on a missed lookup,
this is the "exactly one CommitNode instance per commit id" invariant. -/
def CnsInv (s : BuildState) : Prop :=
  (s.cns.map Prod.fst).Nodup ∧ (s.cns.map Prod.snd).Nodup
    ∧ ∀ p ∈ s.cns, p.2 < s.nodes.size

theorem CnsInv_initState : CnsInv initState := by
  refine ⟨?_, ?_, ?_⟩ <;> simp [initState]

theorem CnsInv_of_eq (s1 s2 : BuildState) (hc : s2.cns = s1.cns)
    (hs : s2.nodes.size = s1.nodes.size) (h : CnsInv s1) : CnsInv s2 := by
  refine ⟨?_, ?_, ?_⟩
  · rw [hc]; exact h.1
  · rw [hc]; exact h.2.1
  · intro p hp
    rw [hs]
    exact h.2.2 p (hc ▸ hp)

theorem CnsInv_internNode (s : BuildState) (c : Commit) (h : CnsInv s) :
    CnsInv (internNode s c).1 := by
  cases hl : lookupCns s c.hash with
  | some i => rw [internNode_found s c i hl]; exact h
  | none =>
      rw [internNode_fresh_eq s c hl]
      have hnotmem : c.hash ∉ s.cns.map Prod.fst := by
        intro hmem
        have := (contains_iff_mem (s.cns.map Prod.fst) c.hash).mpr hmem
        rw [← lookupCns_isSome, hl] at this
        exact absurd this (by simp)
      refine ⟨?_, ?_, ?_⟩
      · show (c.hash :: s.cns.map Prod.fst).Nodup
        exact List.nodup_cons.mpr ⟨hnotmem, h.1⟩
      · show (s.nodes.size :: s.cns.map Prod.snd).Nodup
        refine List.nodup_cons.mpr ⟨?_, h.2.1⟩
        intro hmem
        rcases List.mem_map.mp hmem with ⟨p, hp, hpv⟩
        exact absurd (hpv ▸ h.2.2 p hp) (by omega)
      · intro p hp
        show p.2 < (s.nodes.push ⟨c, [], []⟩).size
        rw [Array.size_push]
        rcases List.mem_cons.mp hp with hph | hps
        · rw [hph]; omega
        · exact Nat.lt_succ_of_lt (h.2.2 p hps)

theorem size_scanTag (b : Branch) (i idx : Nat) (s : BuildState) :
    (scanTag b i idx s).nodes.size = s.nodes.size := by
  unfold scanTag; split
  · exact size_modifyNode s idx _
  · rfl

theorem size_scanLink (lastCn : Option Nat) (idx : Nat) (s : BuildState) :
    (scanLink lastCn idx s).nodes.size = s.nodes.size := by
  cases lastCn with
  | none => rfl
  | some l => exact size_modifyNode s idx _

theorem size_walkMarkMaster (idx : Nat) (s : BuildState) :
    (walkMarkMaster idx s).nodes.size = s.nodes.size := size_modifyNode s idx _

theorem size_walkTag (mb : Branch) (i idx : Nat) (s : BuildState) :
    (walkTag mb i idx s).nodes.size = s.nodes.size := by
  unfold walkTag; split
  · exact size_modifyNode s idx _
  · rfl

theorem size_walkLink (lastCn : Option Nat) (idx : Nat) (s : BuildState) :
    (walkLink lastCn idx s).nodes.size = s.nodes.size := by
  cases lastCn with
  | none => rfl
  | some l =>
      show (if hasChild s idx (getNode s l).commit.hash then s
            else modifyNode s idx (fun n => { n with children := l :: n.children })).nodes.size
          = s.nodes.size
      split
      · rfl
      · exact size_modifyNode s idx _

theorem size_walkElide (idx : Nat) (s : BuildState) :
    (walkElide idx s).nodes.size = s.nodes.size := size_modifyNode s idx _

theorem size_mainStep (mb : Branch) (i : Nat) (c : Commit) (lastCn : Option Nat)
    (s : BuildState) :
    (mainStep mb i c lastCn s).1.nodes.size = (internNode s c).1.nodes.size := by
  unfold mainStep
  rcases hi : internNode s c with ⟨s1, idx, ok⟩
  dsimp only
  split
  · rw [size_walkLink, size_walkTag, size_walkMarkMaster]
  · split
    · rw [size_walkElide, size_walkLink, size_walkTag, size_walkMarkMaster]
    · rw [size_walkLink, size_walkTag, size_walkMarkMaster]

theorem CnsInv_scanState (b : Branch) (i idx : Nat) (lastCn : Option Nat)
    (s : BuildState) (h : CnsInv s) :
    CnsInv (scanLink lastCn idx (scanTag b i idx s)) := by
  apply CnsInv_of_eq s
  · rw [cns_scanLink, cns_scanTag]
  · rw [size_scanLink, size_scanTag]
  · exact h

theorem CnsInv_scanBranchAux (mCommits : List Commit) (b : Branch) :
    ∀ (cs : List Commit) (i : Nat) (lastCn : Option Nat) (s : BuildState),
    CnsInv s → CnsInv (scanBranchAux mCommits b cs i lastCn s).1 := by
  intro cs
  induction cs with
  | nil => intro i lastCn s h; exact h
  | cons c rest ih =>
      intro i lastCn s h
      cases hl : lookupCns s c.hash with
      | some idx0 =>
          rw [scanBranchAux_cons_found mCommits b c rest i lastCn s idx0 hl]
          exact CnsInv_scanState b i idx0 lastCn s h
      | none =>
          have hfresh : CnsInv (internFreshState s c) := by
            have := CnsInv_internNode s c h
            rw [internNode_fresh_eq s c hl] at this
            exact this
          cases hm : mMapContains mCommits c.hash with
          | true =>
              rw [scanBranchAux_cons_fresh_stop mCommits b c rest i lastCn s hl hm]
              show CnsInv { scanLink lastCn s.nodes.size
                  (scanTag b i s.nodes.size (internFreshState s c)) with
                    mNeeded := _ }
              apply CnsInv_of_eq (scanLink lastCn s.nodes.size
                  (scanTag b i s.nodes.size (internFreshState s c)))
              · rfl
              · rfl
              · exact CnsInv_scanState b i s.nodes.size lastCn (internFreshState s c) hfresh
          | false =>
              rw [scanBranchAux_cons_fresh_go mCommits b c rest i lastCn s hl hm]
              exact ih (i + 1) (some s.nodes.size) _
                (CnsInv_scanState b i s.nodes.size lastCn (internFreshState s c) hfresh)

theorem CnsInv_branchPhase (mCommits : List Commit) (nm : String)
    (fetch : String → List Commit) :
    ∀ (bl : List Branch) (mb : Branch) (gcn : Option Nat) (s : BuildState),
    CnsInv s → CnsInv (branchPhase mCommits nm fetch bl mb gcn s).1 := by
  intro bl
  induction bl with
  | nil => intro mb gcn s h; exact h
  | cons b rest ih =>
      intro mb gcn s h
      unfold branchPhase
      split
      · exact ih b gcn s h
      · rcases hscan : scanBranchAux mCommits b (fetch b.name) 0 none s with ⟨s1, last⟩
        dsimp only
        have h1 : CnsInv s1 := by
          have := CnsInv_scanBranchAux mCommits b (fetch b.name) 0 none s h
          rw [hscan] at this
          exact this
        exact ih mb _ s1 h1

theorem CnsInv_mainStep (mb : Branch) (i : Nat) (c : Commit) (lastCn : Option Nat)
    (s : BuildState) (h : CnsInv s) : CnsInv (mainStep mb i c lastCn s).1 := by
  apply CnsInv_of_eq (internNode s c).1
  · exact cns_mainStep mb i c lastCn s
  · exact size_mainStep mb i c lastCn s
  · exact CnsInv_internNode s c h

theorem CnsInv_mainWalkAux (mb : Branch) :
    ∀ (cs : List Commit) (i : Nat) (lastCn gcn : Option Nat) (s : BuildState),
    CnsInv s → CnsInv (mainWalkAux mb cs i lastCn gcn s).1 := by
  intro cs
  induction cs with
  | nil => intro i lastCn gcn s h; exact h
  | cons c rest ih =>
      intro i lastCn gcn s h
      rw [mainWalkAux_cons]
      have hstep : CnsInv { (mainStep mb i c lastCn s).1 with
          mNeeded := deleteNeeded (mainStep mb i c lastCn s).1.mNeeded c.hash } := by
        apply CnsInv_of_eq (mainStep mb i c lastCn s).1
        · rfl
        · rfl
        · exact CnsInv_mainStep mb i c lastCn s h
      dsimp only
      split
      · exact hstep
      · exact ih (i + 1) _ _ _ hstep

/-- C2: throughout a whole build run each commit id maps to exactly one
CommitNode: in the final interning table every hash occurs as a key at most
once, every arena index is the target of at most one key, and all recorded
indices are valid; `internNode` (the only node-creating operation) creates
a node only when its hash misses in the table and otherwise returns the
existing node's index, so an id reached from a divergent branch and from
the main line is backed by the single interned node, which accumulates the
tags of both contexts. -/
theorem intern_unique_per_id (branches : List Branch) (nm : String)
    (mCommits : List Commit) (fetch : String → List Commit) :
    ((buildGraph branches nm mCommits fetch).1.cns.map Prod.fst).Nodup
    ∧ ((buildGraph branches nm mCommits fetch).1.cns.map Prod.snd).Nodup
    ∧ ∀ p ∈ (buildGraph branches nm mCommits fetch).1.cns,
        p.2 < (buildGraph branches nm mCommits fetch).1.nodes.size := by
  have : CnsInv (buildGraph branches nm mCommits fetch).1 := by
    unfold buildGraph
    rcases hbp : branchPhase mCommits nm fetch branches ⟨"", false⟩ none initState
      with ⟨s, mb2, gcn⟩
    have h1 : CnsInv s := by
      have := CnsInv_branchPhase mCommits nm fetch branches ⟨"", false⟩ none initState
        CnsInv_initState
      rw [hbp] at this
      exact this
    exact CnsInv_mainWalkAux mb2 mCommits 0 none gcn s h1
  exact this

/-! Claim C10: detached-HEAD entries are filtered out and never tag a node. -/

/-- Branch-tag closure: every tag attached to any arena node satisfies `P`.
Out-of-range indices read the default node, which has no tags. -/
def TagsBelow (P : Branch → Prop) (s : BuildState) : Prop :=
  ∀ j : Nat, ∀ t ∈ (getNode s j).branches, P t

theorem TagsBelow_initState (P : Branch → Prop) : TagsBelow P initState := by
  intro j t ht
  have hdef : getNode initState j = default := by
    show (#[] : Array CommitNode).getD j default = default
    unfold Array.getD
    rw [dif_neg (by simp)]
  rw [hdef] at ht
  exact absurd ht (by simp [default, instInhabitedCommitNode])

theorem TagsBelow_modify_keep (P : Branch → Prop) (s : BuildState) (idx : Nat)
    (f : CommitNode → CommitNode) (hf : ∀ n, (f n).branches = n.branches)
    (h : TagsBelow P s) : TagsBelow P (modifyNode s idx f) := by
  intro j t ht
  rw [getNode_modifyNode] at ht
  by_cases hc : idx = j ∧ j < s.nodes.size
  · rw [if_pos hc, hf] at ht
    exact h j t ht
  · rw [if_neg hc] at ht
    exact h j t ht

theorem TagsBelow_modify_tag (P : Branch → Prop) (s : BuildState) (idx : Nat)
    (b : Branch) (hb : P b) (h : TagsBelow P s) :
    TagsBelow P (modifyNode s idx (fun n => { n with branches := n.branches ++ [b] })) := by
  intro j t ht
  rw [getNode_modifyNode] at ht
  by_cases hc : idx = j ∧ j < s.nodes.size
  · rw [if_pos hc] at ht
    rcases List.mem_append.mp ht with hold | hnew
    · exact h j t hold
    · rw [List.mem_singleton.mp hnew]; exact hb
  · rw [if_neg hc] at ht
    exact h j t ht

theorem TagsBelow_internNode (P : Branch → Prop) (s : BuildState) (c : Commit)
    (h : TagsBelow P s) : TagsBelow P (internNode s c).1 := by
  cases hl : lookupCns s c.hash with
  | some i => rw [internNode_found s c i hl]; exact h
  | none =>
      rw [internNode_fresh_eq s c hl]
      intro j t ht
      have hget : getNode (internFreshState s c) j =
          (if j < s.nodes.size then getNode s j
           else if j = s.nodes.size then ⟨c, [], []⟩ else default) := by
        show (s.nodes.push ⟨c, [], []⟩).getD j default = _
        rw [getD_push]
        rfl
      rw [hget] at ht
      by_cases h1 : j < s.nodes.size
      · rw [if_pos h1] at ht; exact h j t ht
      · rw [if_neg h1] at ht
        by_cases h2 : j = s.nodes.size
        · rw [if_pos h2] at ht
          exact absurd ht (by simp)
        · rw [if_neg h2] at ht
          exact absurd ht (by simp [default, instInhabitedCommitNode])

theorem TagsBelow_scanTag (P : Branch → Prop) (b : Branch) (i idx : Nat)
    (s : BuildState) (hb : P b) (h : TagsBelow P s) : TagsBelow P (scanTag b i idx s) := by
  unfold scanTag
  split
  · exact TagsBelow_modify_tag P s idx b hb h
  · exact h

theorem TagsBelow_scanLink (P : Branch → Prop) (lastCn : Option Nat) (idx : Nat)
    (s : BuildState) (h : TagsBelow P s) : TagsBelow P (scanLink lastCn idx s) := by
  cases lastCn with
  | none => exact h
  | some l => exact TagsBelow_modify_keep P s idx _ (fun _n => rfl) h

theorem TagsBelow_walkMarkMaster (P : Branch → Prop) (idx : Nat) (s : BuildState)
    (h : TagsBelow P s) : TagsBelow P (walkMarkMaster idx s) :=
  TagsBelow_modify_keep P s idx _ (fun _n => rfl) h

theorem TagsBelow_walkTag (P : Branch → Prop) (mb : Branch) (i idx : Nat)
    (s : BuildState) (hb : P mb) (h : TagsBelow P s) : TagsBelow P (walkTag mb i idx s) := by
  unfold walkTag
  split
  · exact TagsBelow_modify_tag P s idx mb hb h
  · exact h

theorem TagsBelow_walkLink (P : Branch → Prop) (lastCn : Option Nat) (idx : Nat)
    (s : BuildState) (h : TagsBelow P s) : TagsBelow P (walkLink lastCn idx s) := by
  cases lastCn with
  | none => exact h
  | some l =>
      show TagsBelow P (if hasChild s idx (getNode s l).commit.hash then s
        else modifyNode s idx (fun n => { n with children := l :: n.children }))
      split
      · exact h
      · exact TagsBelow_modify_keep P s idx _ (fun _n => rfl) h

theorem TagsBelow_walkElide (P : Branch → Prop) (idx : Nat) (s : BuildState)
    (h : TagsBelow P s) : TagsBelow P (walkElide idx s) :=
  TagsBelow_modify_keep P s idx _ (fun _n => rfl) h

theorem TagsBelow_setNeeded (P : Branch → Prop) (s : BuildState) (l : List String)
    (h : TagsBelow P s) : TagsBelow P { s with mNeeded := l } := h

theorem TagsBelow_scanBranchAux (P : Branch → Prop) (mCommits : List Commit)
    (b : Branch) (hb : P b) :
    ∀ (cs : List Commit) (i : Nat) (lastCn : Option Nat) (s : BuildState),
    TagsBelow P s → TagsBelow P (scanBranchAux mCommits b cs i lastCn s).1 := by
  intro cs
  induction cs with
  | nil => intro i lastCn s h; exact h
  | cons c rest ih =>
      intro i lastCn s h
      have hstate : TagsBelow P (scanLink lastCn (internNode s c).2.1
          (scanTag b i (internNode s c).2.1 (internNode s c).1)) :=
        TagsBelow_scanLink P lastCn _ _
          (TagsBelow_scanTag P b i _ _ hb (TagsBelow_internNode P s c h))
      cases hl : lookupCns s c.hash with
      | some idx0 =>
          rw [scanBranchAux_cons_found mCommits b c rest i lastCn s idx0 hl]
          rw [internNode_found s c idx0 hl] at hstate
          exact hstate
      | none =>
          rw [internNode_fresh_eq s c hl] at hstate
          cases hm : mMapContains mCommits c.hash with
          | true =>
              rw [scanBranchAux_cons_fresh_stop mCommits b c rest i lastCn s hl hm]
              exact TagsBelow_setNeeded P _ _ hstate
          | false =>
              rw [scanBranchAux_cons_fresh_go mCommits b c rest i lastCn s hl hm]
              exact ih (i + 1) (some s.nodes.size) _ hstate

theorem TagsBelow_branchPhase (P : Branch → Prop) (mCommits : List Commit)
    (nm : String) (fetch : String → List Commit) :
    ∀ (bl : List Branch) (mb : Branch) (gcn : Option Nat) (s : BuildState),
    (∀ b ∈ bl, P b) → P mb → TagsBelow P s →
    TagsBelow P (branchPhase mCommits nm fetch bl mb gcn s).1
    ∧ P (branchPhase mCommits nm fetch bl mb gcn s).2.1 := by
  intro bl
  induction bl with
  | nil => intro mb gcn s hbl hmb h; exact ⟨h, hmb⟩
  | cons b rest ih =>
      intro mb gcn s hbl hmb h
      have hb : P b := hbl b (List.mem_cons_self b rest)
      have hrest : ∀ x ∈ rest, P x := fun x hx => hbl x (List.mem_cons_of_mem b hx)
      unfold branchPhase
      split
      · exact ih b gcn s hrest hb h
      · rcases hscan : scanBranchAux mCommits b (fetch b.name) 0 none s with ⟨s1, last⟩
        dsimp only
        have h1 : TagsBelow P s1 := by
          have := TagsBelow_scanBranchAux P mCommits b hb (fetch b.name) 0 none s h
          rw [hscan] at this
          exact this
        exact ih mb _ s1 hrest hmb h1

theorem TagsBelow_mainStep (P : Branch → Prop) (mb : Branch) (i : Nat) (c : Commit)
    (lastCn : Option Nat) (s : BuildState) (hmb : P mb) (h : TagsBelow P s) :
    TagsBelow P (mainStep mb i c lastCn s).1 := by
  unfold mainStep
  rcases hi : internNode s c with ⟨s1, idx, ok⟩
  have h1 : TagsBelow P s1 := by
    have := TagsBelow_internNode P s c h
    rw [hi] at this
    exact this
  have h4 : TagsBelow P (walkLink lastCn idx (walkTag mb i idx (walkMarkMaster idx s1))) :=
    TagsBelow_walkLink P lastCn idx _
      (TagsBelow_walkTag P mb i idx _ hmb (TagsBelow_walkMarkMaster P idx s1 h1))
  dsimp only
  split
  · exact h4
  · split
    · exact TagsBelow_walkElide P idx _ h4
    · exact h4

theorem TagsBelow_mainWalkAux (P : Branch → Prop) (mb : Branch) (hmb : P mb) :
    ∀ (cs : List Commit) (i : Nat) (lastCn gcn : Option Nat) (s : BuildState),
    TagsBelow P s → TagsBelow P (mainWalkAux mb cs i lastCn gcn s).1 := by
  intro cs
  induction cs with
  | nil => intro i lastCn gcn s h; exact h
  | cons c rest ih =>
      intro i lastCn gcn s h
      rw [mainWalkAux_cons]
      have hstep : TagsBelow P { (mainStep mb i c lastCn s).1 with
          mNeeded := deleteNeeded (mainStep mb i c lastCn s).1.mNeeded c.hash } :=
        TagsBelow_setNeeded P _ _ (TagsBelow_mainStep P mb i c lastCn s hmb h)
      dsimp only
      split
      · exact hstep
      · exact ih (i + 1) _ _ _ hstep

theorem listBranchesParse_no_detached :
    ∀ (lines : List String), ∀ b ∈ listBranchesParse lines,
    b.name.startsWith "(HEAD detached at" = false := by
  intro lines
  induction lines with
  | nil => intro b hb; exact absurd hb (by simp [listBranchesParse])
  | cons line rest ih =>
      intro b hb
      rw [show listBranchesParse (line :: rest) =
        (if (line.drop 2).startsWith "(HEAD detached at" then listBranchesParse rest
         else ⟨line.drop 2, line.get? 0 == some '*'⟩ :: listBranchesParse rest) from rfl] at hb
      cases hd : (line.drop 2).startsWith "(HEAD detached at" with
      | true =>
          rw [hd] at hb
          simp only [if_pos] at hb
          exact ih b hb
      | false =>
          rw [hd] at hb
          simp only [Bool.false_eq_true, if_false] at hb
          rcases List.mem_cons.mp hb with hbh | hbr
          · rw [hbh]; exact hd
          · exact ih b hbr

/-- C10: a `git branch` output line whose name field begins with
"(HEAD detached at" is dropped by `listBranches`, so no such pseudo-branch
reaches the graph builder, and consequently no node of the built graph
carries a branch tag with such a name (the only tags ever attached are the
parsed branches and the zero-valued `mainBranch`). -/
theorem detached_head_excluded (lines : List String) (nm : String)
    (mCommits : List Commit) (fetch : String → List Commit) :
    (∀ b ∈ listBranchesParse lines, b.name.startsWith "(HEAD detached at" = false)
    ∧ ∀ j : Nat, ∀ t ∈ (getNode
          (buildGraph (listBranchesParse lines) nm mCommits fetch).1 j).branches,
        t.name.startsWith "(HEAD detached at" = false := by
  set P : Branch → Prop := fun br => br.name.startsWith "(HEAD detached at" = false with hP
  refine ⟨listBranchesParse_no_detached lines, ?_⟩
  have : TagsBelow P (buildGraph (listBranchesParse lines) nm mCommits fetch).1 := by
    unfold buildGraph
    rcases hbp : branchPhase mCommits nm fetch (listBranchesParse lines)
        ⟨"", false⟩ none initState with ⟨s, mb2, gcn⟩
    have hph := TagsBelow_branchPhase P mCommits nm fetch (listBranchesParse lines)
      ⟨"", false⟩ none initState (listBranchesParse_no_detached lines)
      (by rw [hP]; rfl) (TagsBelow_initState P)
    rw [hbp] at hph
    exact TagsBelow_mainWalkAux P mb2 hph.2 mCommits 0 none gcn s hph.1
  exact this

/-! Claim C5: elision placeholders and branch tags. -/

theorem mem_insertNeeded_self (l : List String) (h : String) : h ∈ insertNeeded l h := by
  unfold insertNeeded
  split
  · exact (contains_iff_mem l h).mp (by assumption)
  · exact List.mem_append.mpr (Or.inr (List.mem_singleton.mpr rfl))

theorem mem_insertNeeded_of_mem (l : List String) (h x : String) (hx : x ∈ l) :
    x ∈ insertNeeded l h := by
  unfold insertNeeded
  split
  · exact hx
  · exact List.mem_append.mpr (Or.inl hx)

theorem mem_deleteNeeded (l : List String) (h x : String) :
    x ∈ deleteNeeded l h ↔ x ∈ l ∧ x ≠ h := by
  unfold deleteNeeded
  rw [List.mem_filter]
  constructor
  · rintro ⟨h1, h2⟩; exact ⟨h1, bne_iff_ne.mp h2⟩
  · rintro ⟨h1, h2⟩; exact ⟨h1, bne_iff_ne.mpr h2⟩

theorem mMapContains_iff (mc : List Commit) (h : String) :
    mMapContains mc h = true ↔ h ∈ mc.map (fun c => c.hash) := by
  unfold mMapContains
  rw [List.any_eq_true]
  constructor
  · rintro ⟨c, hc, hbeq⟩
    exact List.mem_map.mpr ⟨c, hc, beq_iff_eq.mp hbeq⟩
  · intro hmem
    rcases List.mem_map.mp hmem with ⟨c, hc, hh⟩
    exact ⟨c, hc, beq_iff_eq.mpr hh⟩

theorem lookupCns_none_iff (s : BuildState) (h : String) :
    lookupCns s h = none ↔ h ∉ s.cns.map Prod.fst := by
  constructor
  · intro hn hmem
    have h1 := (contains_iff_mem (s.cns.map Prod.fst) h).mpr hmem
    rw [← lookupCns_isSome, hn] at h1
    exact absurd h1 (by simp)
  · intro hmem
    cases hl : lookupCns s h with
    | none => rfl
    | some v =>
        have h1 : (lookupCns s h).isSome = true := by rw [hl]; rfl
        rw [lookupCns_isSome] at h1
        exact absurd ((contains_iff_mem _ _).mp h1) hmem

theorem size_internFresh (s : BuildState) (c : Commit) :
    (internFreshState s c).nodes.size = s.nodes.size + 1 := Array.size_push _ _

theorem getNode_internFresh (s : BuildState) (c : Commit) (j : Nat) :
    getNode (internFreshState s c) j =
      (if j < s.nodes.size then getNode s j
       else if j = s.nodes.size then ⟨c, [], []⟩ else default) := by
  show (s.nodes.push ⟨c, [], []⟩).getD j default = _
  rw [getD_push]
  rfl

theorem walkTag_id (mb : Branch) (i idx : Nat) (s : BuildState)
    (h : (i == 0) = false) : walkTag mb i idx s = s := by
  unfold walkTag
  rw [h]
  rfl

theorem walkMarkMaster_commit_hash (idx : Nat) (s : BuildState) (j : Nat) :
    (getNode (walkMarkMaster idx s) j).commit.hash = (getNode s j).commit.hash := by
  unfold walkMarkMaster
  rw [getNode_modifyNode]
  split <;> rfl

theorem walkMarkMaster_branches (idx : Nat) (s : BuildState) (j : Nat) :
    (getNode (walkMarkMaster idx s) j).branches = (getNode s j).branches := by
  unfold walkMarkMaster
  rw [getNode_modifyNode]
  split <;> rfl

theorem walkTag_commit (mb : Branch) (i idx : Nat) (s : BuildState) (j : Nat) :
    (getNode (walkTag mb i idx s) j).commit = (getNode s j).commit := by
  unfold walkTag
  split
  · rw [getNode_modifyNode]; split <;> rfl
  · rfl

theorem walkLink_commit (lastCn : Option Nat) (idx : Nat) (s : BuildState) (j : Nat) :
    (getNode (walkLink lastCn idx s) j).commit = (getNode s j).commit := by
  cases lastCn with
  | none => rfl
  | some l =>
      show (getNode (if hasChild s idx (getNode s l).commit.hash then s
        else modifyNode s idx (fun n => { n with children := l :: n.children })) j).commit
          = (getNode s j).commit
      split
      · rfl
      · rw [getNode_modifyNode]; split <;> rfl

theorem walkLink_branches (lastCn : Option Nat) (idx : Nat) (s : BuildState) (j : Nat) :
    (getNode (walkLink lastCn idx s) j).branches = (getNode s j).branches := by
  cases lastCn with
  | none => rfl
  | some l =>
      show (getNode (if hasChild s idx (getNode s l).commit.hash then s
        else modifyNode s idx (fun n => { n with children := l :: n.children })) j).branches
          = (getNode s j).branches
      split
      · rfl
      · rw [getNode_modifyNode]; split <;> rfl

theorem getNode_walkElide (idx : Nat) (s : BuildState) (j : Nat) :
    getNode (walkElide idx s) j =
      (if idx = j ∧ j < s.nodes.size then
        { getNode s j with commit :=
            { (getNode s j).commit with subject := "...", hash := "" } }
       else getNode s j) := by
  unfold walkElide
  rw [getNode_modifyNode]

/-- Inputs of the C5 counterexample: the main line lists the hash "m" twice,
and a branch "b1" has its tip at "m". -/
def cexBranches5 : List Branch := [⟨"b1", false⟩, ⟨"b2", false⟩]

def cexMain5 : List Commit :=
  [mkCommit "a" "au" "sa", mkCommit "m" "au" "sm", mkCommit "m" "au" "sm",
   mkCommit "b" "au" "sb"]

def cexFetch5 : String → List Commit := fun nm =>
  if nm == "b1" then [mkCommit "m" "au" "sm"]
  else if nm == "b2" then [mkCommit "x" "au" "sx", mkCommit "b" "au" "sb"]
  else []

/-- C5 counterexample: with a duplicated main-line hash, the second
occurrence of "m" is no longer in `mNeeded`, so the walk turns the node of
"m" — which carries branch tag "b1" — into an elision placeholder (id
cleared to "", subject "..."); the claim that a placeholder produced by the
walk never carries branch tags is false for this input. -/
theorem placeholder_untagged_cex :
    (getNode (buildGraph cexBranches5 "main" cexMain5 cexFetch5).1 0).commit.hash = ""
    ∧ (getNode (buildGraph cexBranches5 "main" cexMain5 cexFetch5).1 0).commit.subject = "..."
    ∧ (getNode (buildGraph cexBranches5 "main" cexMain5 cexFetch5).1 0).branches
        = [⟨"b1", false⟩] := by
  refine ⟨?_, ?_, ?_⟩ <;> decide

/-- Every arena node currently carries a non-empty hash.  This holds
throughout the branch phase (branch scans never clear hashes) when all
fetched commits have non-empty hashes. -/
def HashNonEmpty (s : BuildState) : Prop :=
  ∀ j, j < s.nodes.size → (getNode s j).commit.hash ≠ ""

/-- Every interned hash belonging to `mh` is recorded in `mNeeded`:
divergence points created by branch scans are exactly the main-line hashes
in the table, and they are all in `mNeeded`. -/
def KeysNeeded (mh : List String) (s : BuildState) : Prop :=
  ∀ p ∈ s.cns, p.1 ∈ mh → p.1 ∈ s.mNeeded

/-- Placeholder soundness: any node whose hash has been cleared carries no
branch tags and is marked as on the main line. -/
def NodesOK (s : BuildState) : Prop :=
  ∀ j, j < s.nodes.size → (getNode s j).commit.hash = "" →
    (getNode s j).branches = [] ∧ (getNode s j).commit.onMaster = true

theorem scanTag_commit (b : Branch) (i idx : Nat) (s : BuildState) (j : Nat) :
    (getNode (scanTag b i idx s) j).commit = (getNode s j).commit := by
  unfold scanTag
  split
  · rw [getNode_modifyNode]; split <;> rfl
  · rfl

theorem scanLink_commit (lastCn : Option Nat) (idx : Nat) (s : BuildState) (j : Nat) :
    (getNode (scanLink lastCn idx s) j).commit = (getNode s j).commit := by
  cases lastCn with
  | none => rfl
  | some l => rw [show scanLink (some l) idx s
      = modifyNode s idx (fun n => { n with children := n.children ++ [l] }) from rfl,
      getNode_modifyNode]; split <;> rfl

theorem HashNonEmpty_scanState (b : Branch) (i idx : Nat) (lastCn : Option Nat)
    (s : BuildState) (h : HashNonEmpty s) :
    HashNonEmpty (scanLink lastCn idx (scanTag b i idx s)) := by
  intro j hj
  rw [size_scanLink, size_scanTag] at hj
  have hc : (getNode (scanLink lastCn idx (scanTag b i idx s)) j).commit
      = (getNode s j).commit := by
    rw [scanLink_commit, scanTag_commit]
  rw [hc]
  exact h j hj

theorem HashNonEmpty_internFresh (s : BuildState) (c : Commit) (hch : c.hash ≠ "")
    (h : HashNonEmpty s) : HashNonEmpty (internFreshState s c) := by
  intro j hj
  rw [size_internFresh] at hj
  rw [getNode_internFresh]
  by_cases h1 : j < s.nodes.size
  · rw [if_pos h1]; exact h j h1
  · rw [if_neg h1]
    have h2 : j = s.nodes.size := by omega
    rw [if_pos h2]
    exact hch

theorem KeysNeeded_of_eq (mh : List String) (s1 s2 : BuildState)
    (hc : s2.cns = s1.cns) (hn : s2.mNeeded = s1.mNeeded)
    (h : KeysNeeded mh s1) : KeysNeeded mh s2 := by
  intro p hp hm
  rw [hn]
  exact h p (hc ▸ hp) hm

theorem phaseA_scan (mCommits : List Commit) (b : Branch) :
    ∀ (cs : List Commit) (i : Nat) (lastCn : Option Nat) (s : BuildState),
    (∀ c ∈ cs, c.hash ≠ "") → HashNonEmpty s →
    KeysNeeded (mCommits.map (fun c => c.hash)) s →
    HashNonEmpty (scanBranchAux mCommits b cs i lastCn s).1
    ∧ KeysNeeded (mCommits.map (fun c => c.hash)) (scanBranchAux mCommits b cs i lastCn s).1 := by
  intro cs
  induction cs with
  | nil => intro i lastCn s _hcs hh hk; exact ⟨hh, hk⟩
  | cons c rest ih =>
      intro i lastCn s hcs hh hk
      have hch : c.hash ≠ "" := hcs c (List.mem_cons_self c rest)
      have hrest : ∀ x ∈ rest, x.hash ≠ "" := fun x hx => hcs x (List.mem_cons_of_mem c hx)
      cases hl : lookupCns s c.hash with
      | some idx0 =>
          rw [scanBranchAux_cons_found mCommits b c rest i lastCn s idx0 hl]
          refine ⟨HashNonEmpty_scanState b i idx0 lastCn s hh, ?_⟩
          apply KeysNeeded_of_eq _ s
          · rw [cns_scanLink, cns_scanTag]
          · rw [mNeeded_scanLink, mNeeded_scanTag]
          · exact hk
      | none =>
          have hfreshH : HashNonEmpty (scanLink lastCn s.nodes.size
              (scanTag b i s.nodes.size (internFreshState s c))) :=
            HashNonEmpty_scanState b i s.nodes.size lastCn (internFreshState s c)
              (HashNonEmpty_internFresh s c hch hh)
          have hcns3 : (scanLink lastCn s.nodes.size
              (scanTag b i s.nodes.size (internFreshState s c))).cns
                = (c.hash, s.nodes.size) :: s.cns := by
            rw [cns_scanLink, cns_scanTag]; rfl
          have hneed3 : (scanLink lastCn s.nodes.size
              (scanTag b i s.nodes.size (internFreshState s c))).mNeeded = s.mNeeded := by
            rw [mNeeded_scanLink, mNeeded_scanTag]; rfl
          cases hm : mMapContains mCommits c.hash with
          | true =>
              rw [scanBranchAux_cons_fresh_stop mCommits b c rest i lastCn s hl hm]
              refine ⟨?_, ?_⟩
              · intro j hj
                exact hfreshH j hj
              · intro p hp hmem
                show p.1 ∈ insertNeeded (scanLink lastCn s.nodes.size
                    (scanTag b i s.nodes.size (internFreshState s c))).mNeeded c.hash
                rw [hneed3]
                have hp2 : p ∈ (c.hash, s.nodes.size) :: s.cns := by
                  rw [← hcns3]; exact hp
                rcases List.mem_cons.mp hp2 with hpc | hps
                · rw [hpc]
                  exact mem_insertNeeded_self _ _
                · exact mem_insertNeeded_of_mem _ _ _ (hk p hps hmem)
          | false =>
              rw [scanBranchAux_cons_fresh_go mCommits b c rest i lastCn s hl hm]
              apply ih (i + 1) (some s.nodes.size) _ hrest hfreshH
              intro p hp hmem
              rw [hneed3]
              have hp2 : p ∈ (c.hash, s.nodes.size) :: s.cns := by
                rw [← hcns3]; exact hp
              rcases List.mem_cons.mp hp2 with hpc | hps
              · exfalso
                have : mMapContains mCommits c.hash = true := by
                  rw [mMapContains_iff]
                  rw [hpc] at hmem
                  exact hmem
                rw [hm] at this
                exact absurd this (by simp)
              · exact hk p hps hmem

theorem phaseA_branches (mCommits : List Commit) (nm : String)
    (fetch : String → List Commit) :
    ∀ (bl : List Branch) (mb : Branch) (gcn : Option Nat) (s : BuildState),
    (∀ br ∈ bl, ∀ c ∈ fetch br.name, c.hash ≠ "") → HashNonEmpty s →
    KeysNeeded (mCommits.map (fun c => c.hash)) s →
    HashNonEmpty (branchPhase mCommits nm fetch bl mb gcn s).1
    ∧ KeysNeeded (mCommits.map (fun c => c.hash))
        (branchPhase mCommits nm fetch bl mb gcn s).1 := by
  intro bl
  induction bl with
  | nil => intro mb gcn s _hbl hh hk; exact ⟨hh, hk⟩
  | cons b rest ih =>
      intro mb gcn s hbl hh hk
      have hbfetch : ∀ c ∈ fetch b.name, c.hash ≠ "" := hbl b (List.mem_cons_self b rest)
      have hrest : ∀ x ∈ rest, ∀ c ∈ fetch x.name, c.hash ≠ "" :=
        fun x hx => hbl x (List.mem_cons_of_mem b hx)
      unfold branchPhase
      split
      · exact ih b gcn s hrest hh hk
      · rcases hscan : scanBranchAux mCommits b (fetch b.name) 0 none s with ⟨s1, last⟩
        dsimp only
        have h1 := phaseA_scan mCommits b (fetch b.name) 0 none s hbfetch hh hk
        rw [hscan] at h1
        exact ih mb _ s1 hrest h1.1 h1.2

theorem NodesOK_of_HashNonEmpty (s : BuildState) (h : HashNonEmpty s) : NodesOK s :=
  fun j hj hh => absurd hh (h j hj)

theorem mainStep_found_eq (mb : Branch) (i : Nat) (c : Commit) (lastCn : Option Nat)
    (s : BuildState) (idx0 : Nat) (hl : lookupCns s c.hash = some idx0) :
    mainStep mb i c lastCn s =
      (let s4 := walkLink lastCn idx0 (walkTag mb i idx0 (walkMarkMaster idx0 s))
       if s4.mNeeded.contains c.hash || i == 0 then (s4, idx0, some idx0)
       else if lastSubject s4 lastCn != "..." then (walkElide idx0 s4, idx0, some idx0)
       else (s4, idx0, lastCn)) := by
  unfold mainStep
  rw [internNode_found s c idx0 hl]

theorem mainStep_fresh_eq (mb : Branch) (i : Nat) (c : Commit) (lastCn : Option Nat)
    (s : BuildState) (hl : lookupCns s c.hash = none) :
    mainStep mb i c lastCn s =
      (let s4 := walkLink lastCn s.nodes.size
          (walkTag mb i s.nodes.size (walkMarkMaster s.nodes.size (internFreshState s c)))
       if s4.mNeeded.contains c.hash || i == 0 then (s4, s.nodes.size, some s.nodes.size)
       else if lastSubject s4 lastCn != "..." then
         (walkElide s.nodes.size s4, s.nodes.size, some s.nodes.size)
       else (s4, s.nodes.size, lastCn)) := by
  unfold mainStep
  rw [internNode_fresh_eq s c hl]

theorem NodesOK_walkState_found (mb : Branch) (i : Nat) (idx0 : Nat)
    (lastCn : Option Nat) (s : BuildState) (hi : (i == 0) = false)
    (h : NodesOK s) :
    NodesOK (walkLink lastCn idx0 (walkTag mb i idx0 (walkMarkMaster idx0 s))) := by
  rw [walkTag_id mb i idx0 _ hi]
  intro j hj
  rw [size_walkLink, size_walkMarkMaster] at hj
  have hcom : (getNode (walkLink lastCn idx0 (walkMarkMaster idx0 s)) j).commit
      = (getNode (walkMarkMaster idx0 s) j).commit := walkLink_commit lastCn idx0 _ j
  have hbr : (getNode (walkLink lastCn idx0 (walkMarkMaster idx0 s)) j).branches
      = (getNode (walkMarkMaster idx0 s) j).branches := walkLink_branches lastCn idx0 _ j
  have hmm2 : getNode (walkMarkMaster idx0 s) j =
      (if idx0 = j ∧ j < s.nodes.size then
        { getNode s j with commit := { (getNode s j).commit with onMaster := true } }
       else getNode s j) := by
    unfold walkMarkMaster
    rw [getNode_modifyNode]
  intro hh
  rw [hcom, hmm2] at hh
  rw [hbr, hcom, hmm2]
  by_cases hc : idx0 = j ∧ j < s.nodes.size
  · rw [if_pos hc] at hh ⊢
    have := h j hj hh
    exact ⟨this.1, rfl⟩
  · rw [if_neg hc] at hh ⊢
    exact h j hj hh

theorem fresh_walkState_eval (mb : Branch) (i : Nat) (c : Commit) (lastCn : Option Nat)
    (s : BuildState) (hi : (i == 0) = false) :
    (∀ j, j < s.nodes.size →
      getNode (walkLink lastCn s.nodes.size
        (walkTag mb i s.nodes.size (walkMarkMaster s.nodes.size (internFreshState s c)))) j
      = getNode s j)
    ∧ (getNode (walkLink lastCn s.nodes.size
        (walkTag mb i s.nodes.size (walkMarkMaster s.nodes.size (internFreshState s c))))
        s.nodes.size).commit = { c with onMaster := true }
    ∧ (getNode (walkLink lastCn s.nodes.size
        (walkTag mb i s.nodes.size (walkMarkMaster s.nodes.size (internFreshState s c))))
        s.nodes.size).branches = []
    ∧ (walkLink lastCn s.nodes.size
        (walkTag mb i s.nodes.size (walkMarkMaster s.nodes.size
          (internFreshState s c)))).nodes.size = s.nodes.size + 1 := by
  rw [walkTag_id mb i s.nodes.size _ hi]
  have hmm2 : ∀ j, getNode (walkMarkMaster s.nodes.size (internFreshState s c)) j =
      (if s.nodes.size = j ∧ j < (internFreshState s c).nodes.size then
        { getNode (internFreshState s c) j with commit :=
            { (getNode (internFreshState s c) j).commit with onMaster := true } }
       else getNode (internFreshState s c) j) := by
    intro j
    unfold walkMarkMaster
    rw [getNode_modifyNode]
  refine ⟨?_, ?_, ?_, ?_⟩
  · intro j hj
    have h1 : getNode (walkLink lastCn s.nodes.size
        (walkMarkMaster s.nodes.size (internFreshState s c))) j
        = getNode (walkMarkMaster s.nodes.size (internFreshState s c)) j := by
      have hc := walkLink_commit lastCn s.nodes.size
        (walkMarkMaster s.nodes.size (internFreshState s c)) j
      have hb := walkLink_branches lastCn s.nodes.size
        (walkMarkMaster s.nodes.size (internFreshState s c)) j
      -- children may differ only at index s.nodes.size, and j < s.nodes.size
      cases lastCn with
      | none => rfl
      | some l =>
          show getNode (if hasChild _ s.nodes.size _ then _
            else modifyNode _ s.nodes.size _) j = _
          split
          · rfl
          · rw [getNode_modifyNode]
            rw [if_neg (by omega)]
    rw [h1, hmm2 j, if_neg (by omega), getNode_internFresh, if_pos hj]
  · have h1 : (getNode (walkLink lastCn s.nodes.size
        (walkMarkMaster s.nodes.size (internFreshState s c))) s.nodes.size).commit
        = (getNode (walkMarkMaster s.nodes.size (internFreshState s c)) s.nodes.size).commit :=
      walkLink_commit lastCn s.nodes.size _ s.nodes.size
    rw [h1, hmm2 s.nodes.size,
      if_pos ⟨rfl, by rw [size_internFresh]; omega⟩,
      getNode_internFresh, if_neg (by omega), if_pos rfl]
  · have h1 : (getNode (walkLink lastCn s.nodes.size
        (walkMarkMaster s.nodes.size (internFreshState s c))) s.nodes.size).branches
        = (getNode (walkMarkMaster s.nodes.size (internFreshState s c)) s.nodes.size).branches :=
      walkLink_branches lastCn s.nodes.size _ s.nodes.size
    rw [h1, hmm2 s.nodes.size,
      if_pos ⟨rfl, by rw [size_internFresh]; omega⟩,
      getNode_internFresh, if_neg (by omega), if_pos rfl]
  · rw [size_walkLink, size_walkMarkMaster, size_internFresh]

theorem mainStep_NodesOK (mb : Branch) (i : Nat) (c : Commit) (lastCn : Option Nat)
    (s : BuildState) (hi : (i == 0) = false) (hch : c.hash ≠ "")
    (hfound : lookupCns s c.hash ≠ none → s.mNeeded.contains c.hash = true)
    (h : NodesOK s) : NodesOK (mainStep mb i c lastCn s).1 := by
  cases hl : lookupCns s c.hash with
  | some idx0 =>
      rw [mainStep_found_eq mb i c lastCn s idx0 hl]
      have hcont : s.mNeeded.contains c.hash = true := hfound (by rw [hl]; simp)
      have hneed : (walkLink lastCn idx0 (walkTag mb i idx0 (walkMarkMaster idx0 s))).mNeeded
          = s.mNeeded := by
        rw [mNeeded_walkLink, mNeeded_walkTag, mNeeded_walkMarkMaster]
      dsimp only
      rw [hneed, hcont]
      simp only [Bool.true_or, if_pos]
      exact NodesOK_walkState_found mb i idx0 lastCn s hi h
  | none =>
      rw [mainStep_fresh_eq mb i c lastCn s hl]
      obtain ⟨hold, hcomN, hbrN, hszN⟩ := fresh_walkState_eval mb i c lastCn s hi
      have hok4 : NodesOK (walkLink lastCn s.nodes.size
          (walkTag mb i s.nodes.size (walkMarkMaster s.nodes.size (internFreshState s c)))) := by
        intro j hj
        rw [hszN] at hj
        by_cases hjs : j < s.nodes.size
        · rw [hold j hjs]
          exact h j hjs
        · have hje : j = s.nodes.size := by omega
          subst hje
          intro hh
          rw [hcomN] at hh
          exact absurd hh hch
      dsimp only
      split
      · exact hok4
      · split
        · -- elide branch: the fresh node gets its hash cleared
          intro j hj
          rw [size_walkElide, hszN] at hj
          rw [getNode_walkElide]
          by_cases hc : s.nodes.size = j ∧ j < (walkLink lastCn s.nodes.size
              (walkTag mb i s.nodes.size (walkMarkMaster s.nodes.size
                (internFreshState s c)))).nodes.size
          · rw [if_pos hc]
            intro _hh
            constructor
            · show (getNode _ j).branches = []
              rw [← hc.1]
              exact hbrN
            · show (getNode _ j).commit.onMaster = true
              rw [← hc.1, hcomN]
          · rw [if_neg hc]
            have hjs : j < s.nodes.size := by
              rcases Nat.lt_or_ge j s.nodes.size with h1 | h1
              · exact h1
              · exfalso
                apply hc
                constructor
                · omega
                · rw [hszN]; omega
            rw [hold j hjs]
            exact h j hjs
        · exact hok4

theorem step_KeysNeeded (mb : Branch) (i : Nat) (c : Commit) (lastCn : Option Nat)
    (s : BuildState) (restH : List String) (hnotin : c.hash ∉ restH)
    (hk : KeysNeeded (c.hash :: restH) s) :
    KeysNeeded restH { (mainStep mb i c lastCn s).1 with
        mNeeded := deleteNeeded (mainStep mb i c lastCn s).1.mNeeded c.hash } := by
  intro p hp hmem
  have hp2 : p ∈ (internNode s c).1.cns := by
    have : ({ (mainStep mb i c lastCn s).1 with
        mNeeded := deleteNeeded (mainStep mb i c lastCn s).1.mNeeded c.hash }).cns
          = (internNode s c).1.cns := cns_mainStep mb i c lastCn s
    rw [← this]
    exact hp
  have hne : p.1 ≠ c.hash := fun he => hnotin (he ▸ hmem)
  have hps : p ∈ s.cns := by
    cases hl : lookupCns s c.hash with
    | some v => rw [internNode_found s c v hl] at hp2; exact hp2
    | none =>
        rw [internNode_fresh_eq s c hl] at hp2
        rcases List.mem_cons.mp hp2 with hpc | hok
        · exact absurd (congrArg Prod.fst hpc) hne
        · exact hok
  have hmem2 : p.1 ∈ s.mNeeded := hk p hps (List.mem_cons_of_mem c.hash hmem)
  show p.1 ∈ deleteNeeded (mainStep mb i c lastCn s).1.mNeeded c.hash
  rw [(mainStep_parts mb i c lastCn s).1]
  exact (mem_deleteNeeded s.mNeeded c.hash p.1).mpr ⟨hmem2, hne⟩

theorem walk_NodesOK (mb : Branch) :
    ∀ (R : List Commit) (i : Nat) (lastCn gcn : Option Nat) (s : BuildState),
    (i == 0) = false → (∀ c ∈ R, c.hash ≠ "") →
    (R.map (fun c => c.hash)).Nodup →
    NodesOK s → KeysNeeded (R.map (fun c => c.hash)) s →
    NodesOK (mainWalkAux mb R i lastCn gcn s).1 := by
  intro R
  induction R with
  | nil => intro i lastCn gcn s _hi _hr _hn hok _hk; exact hok
  | cons c rest ih =>
      intro i lastCn gcn s hi hr hn hok hk
      have hch : c.hash ≠ "" := hr c (List.mem_cons_self c rest)
      have hrest : ∀ x ∈ rest, x.hash ≠ "" := fun x hx => hr x (List.mem_cons_of_mem c hx)
      have hnotin : c.hash ∉ rest.map (fun c => c.hash) := by
        have := hn
        rw [List.map_cons, List.nodup_cons] at this
        exact this.1
      have hnrest : (rest.map (fun c => c.hash)).Nodup := by
        have := hn
        rw [List.map_cons, List.nodup_cons] at this
        exact this.2
      have hfound : lookupCns s c.hash ≠ none → s.mNeeded.contains c.hash = true := by
        intro hne
        have hsome : (lookupCns s c.hash).isSome = true := by
          cases hl : lookupCns s c.hash with
          | none => exact absurd hl hne
          | some v => rfl
        rw [lookupCns_isSome] at hsome
        have hmemk : c.hash ∈ s.cns.map Prod.fst := (contains_iff_mem _ _).mp hsome
        rcases List.mem_map.mp hmemk with ⟨p, hp, hpf⟩
        have : p.1 ∈ s.mNeeded := hk p hp (by
          rw [hpf, List.map_cons]
          exact List.mem_cons_self _ _)
        rw [← hpf]
        exact (contains_iff_mem _ _).mpr this
      have hstepOK : NodesOK { (mainStep mb i c lastCn s).1 with
          mNeeded := deleteNeeded (mainStep mb i c lastCn s).1.mNeeded c.hash } :=
        mainStep_NodesOK mb i c lastCn s hi hch hfound hok
      have hstepK : KeysNeeded (rest.map (fun c => c.hash))
          { (mainStep mb i c lastCn s).1 with
            mNeeded := deleteNeeded (mainStep mb i c lastCn s).1.mNeeded c.hash } :=
        step_KeysNeeded mb i c lastCn s (rest.map (fun c => c.hash)) hnotin
          (by rw [show c.hash :: rest.map (fun c => c.hash)
                = (c :: rest).map (fun c => c.hash) from rfl]
              exact hk)
      rw [mainWalkAux_cons]
      dsimp only
      split
      · exact hstepOK
      · exact ih (i + 1) _ _ _ (by simp) hrest hnrest hstepOK hstepK

theorem mainStep_HashNonEmpty_zero (mb : Branch) (c : Commit) (lastCn : Option Nat)
    (s : BuildState) (hch : c.hash ≠ "") (h : HashNonEmpty s) :
    HashNonEmpty (mainStep mb 0 c lastCn s).1 := by
  have hcommit : ∀ t : BuildState, ∀ j,
      (getNode (walkLink lastCn (t.nodes.size - 1) t) j).commit.hash
        = (getNode t j).commit.hash := by
    intro t j
    rw [walkLink_commit]
  cases hl : lookupCns s c.hash with
  | some idx0 =>
      rw [mainStep_found_eq mb 0 c lastCn s idx0 hl]
      dsimp only
      rw [show (0 == 0) = true from rfl]
      simp only [Bool.or_true, if_pos]
      intro j hj
      rw [size_walkLink, size_walkTag, size_walkMarkMaster] at hj
      have hc2 : (getNode (walkLink lastCn idx0
          (walkTag mb 0 idx0 (walkMarkMaster idx0 s))) j).commit.hash
          = (getNode (walkMarkMaster idx0 s) j).commit.hash := by
        rw [walkLink_commit, walkTag_commit]
      rw [hc2, walkMarkMaster_commit_hash]
      exact h j hj
  | none =>
      rw [mainStep_fresh_eq mb 0 c lastCn s hl]
      dsimp only
      rw [show (0 == 0) = true from rfl]
      simp only [Bool.or_true, if_pos]
      intro j hj
      rw [size_walkLink, size_walkTag, size_walkMarkMaster, size_internFresh] at hj
      have hc2 : (getNode (walkLink lastCn s.nodes.size
          (walkTag mb 0 s.nodes.size (walkMarkMaster s.nodes.size (internFreshState s c))))
            j).commit.hash
          = (getNode (walkMarkMaster s.nodes.size (internFreshState s c)) j).commit.hash := by
        rw [walkLink_commit, walkTag_commit]
      rw [hc2, walkMarkMaster_commit_hash, getNode_internFresh]
      by_cases h1 : j < s.nodes.size
      · rw [if_pos h1]; exact h j h1
      · rw [if_neg h1, if_pos (by omega)]
        exact hch

/-- C5 (amended): provided every listed commit (on any branch and on the
main line) has a non-empty id and the main-line ids are pairwise distinct —
both true of real `git log` output — every node of the built graph whose id
has been cleared (the elision placeholders produced by the main-line walk,
the only ids that can be empty) has an empty branch-tag list and is marked
as on the main line, in any order of branch processing. -/
theorem placeholder_untagged_amended (branches : List Branch) (nm : String)
    (mCommits : List Commit) (fetch : String → List Commit)
    (hb : ∀ br ∈ branches, ∀ c ∈ fetch br.name, c.hash ≠ "")
    (hm : ∀ c ∈ mCommits, c.hash ≠ "")
    (hnd : (mCommits.map (fun c => c.hash)).Nodup) :
    ∀ j, j < (buildGraph branches nm mCommits fetch).1.nodes.size →
      (getNode (buildGraph branches nm mCommits fetch).1 j).commit.hash = "" →
      (getNode (buildGraph branches nm mCommits fetch).1 j).branches = []
      ∧ (getNode (buildGraph branches nm mCommits fetch).1 j).commit.onMaster = true := by
  show NodesOK (buildGraph branches nm mCommits fetch).1
  unfold buildGraph
  rcases hbp : branchPhase mCommits nm fetch branches ⟨"", false⟩ none initState
    with ⟨s, mb2, gcn⟩
  dsimp only
  have hA := phaseA_branches mCommits nm fetch branches ⟨"", false⟩ none initState hb
    (by intro j hj; exact absurd hj (by simp [initState, getNode]))
    (by intro p hp _; exact absurd hp (by simp [initState]))
  rw [hbp] at hA
  cases mCommits with
  | nil => exact NodesOK_of_HashNonEmpty s hA.1
  | cons c0 rest =>
      have hch0 : c0.hash ≠ "" := hm c0 (List.mem_cons_self c0 rest)
      have hnotin0 : c0.hash ∉ rest.map (fun c => c.hash) := by
        have := hnd
        rw [List.map_cons, List.nodup_cons] at this
        exact this.1
      have hnrest : (rest.map (fun c => c.hash)).Nodup := by
        have := hnd
        rw [List.map_cons, List.nodup_cons] at this
        exact this.2
      have hH2 : HashNonEmpty { (mainStep mb2 0 c0 none s).1 with
          mNeeded := deleteNeeded (mainStep mb2 0 c0 none s).1.mNeeded c0.hash } := by
        intro j hj
        exact mainStep_HashNonEmpty_zero mb2 c0 none s hch0 hA.1 j hj
      have hK2 : KeysNeeded (rest.map (fun c => c.hash))
          { (mainStep mb2 0 c0 none s).1 with
            mNeeded := deleteNeeded (mainStep mb2 0 c0 none s).1.mNeeded c0.hash } :=
        step_KeysNeeded mb2 0 c0 none s (rest.map (fun c => c.hash)) hnotin0
          (by rw [show c0.hash :: rest.map (fun c => c.hash)
                = (c0 :: rest).map (fun c => c.hash) from rfl]
              exact hA.2)
      rw [mainWalkAux_cons]
      dsimp only
      split
      · exact NodesOK_of_HashNonEmpty _ hH2
      · exact walk_NodesOK mb2 rest 1 _ _ _ (by rfl) (fun x hx => hm x (List.mem_cons_of_mem c0 hx))
          hnrest (NodesOK_of_HashNonEmpty _ hH2) hK2

/-- C5 witness: the amended theorem applied to the divergent-branch scenario
(one feature branch over a three-commit main line); node 4 is the produced
elision placeholder and it carries no tags. -/
theorem placeholder_untagged_amended_witness :
    (∀ br ∈ [Branch.mk "feature" true], ∀ c ∈ (fun nm =>
        if nm == "feature" then
          [mkCommit "c3" "au" "s3", mkCommit "c2" "au" "s2", mkCommit "c1" "au" "s1"]
        else []) br.name, c.hash ≠ "")
    ∧ (∀ c ∈ [mkCommit "c5" "au" "s5", mkCommit "c4" "au" "s4", mkCommit "c1" "au" "s1"],
        c.hash ≠ "")
    ∧ ([mkCommit "c5" "au" "s5", mkCommit "c4" "au" "s4",
        mkCommit "c1" "au" "s1"].map (fun c => c.hash)).Nodup
    ∧ ((getNode (buildGraph [Branch.mk "feature" true] "master"
          [mkCommit "c5" "au" "s5", mkCommit "c4" "au" "s4", mkCommit "c1" "au" "s1"]
          (fun nm => if nm == "feature" then
            [mkCommit "c3" "au" "s3", mkCommit "c2" "au" "s2", mkCommit "c1" "au" "s1"]
          else [])).1 4).branches = []
      ∧ (getNode (buildGraph [Branch.mk "feature" true] "master"
          [mkCommit "c5" "au" "s5", mkCommit "c4" "au" "s4", mkCommit "c1" "au" "s1"]
          (fun nm => if nm == "feature" then
            [mkCommit "c3" "au" "s3", mkCommit "c2" "au" "s2", mkCommit "c1" "au" "s1"]
          else [])).1 4).commit.onMaster = true) :=
  ⟨by decide, by decide, by decide,
    placeholder_untagged_amended [Branch.mk "feature" true] "master"
      [mkCommit "c5" "au" "s5", mkCommit "c4" "au" "s4", mkCommit "c1" "au" "s1"]
      (fun nm => if nm == "feature" then
        [mkCommit "c3" "au" "s3", mkCommit "c2" "au" "s2", mkCommit "c1" "au" "s1"]
      else [])
      (by decide) (by decide) (by decide) 4 (by decide) (by decide)⟩

/-! Claim C3: structure of the collapsed main line. -/

/-- The display pair of a node: its subject and its id. -/
def pairOf (n : CommitNode) : String × String := (n.commit.subject, n.commit.hash)

/-- The chain of nodes reachable from `idx` by always following the first
child (the main-line continuation), as display pairs.  `fuel` bounds depth. -/
def chainPairs (s : BuildState) : Nat → Nat → List (String × String)
  | 0, _ => []
  | fuel + 1, idx =>
      pairOf (getNode s idx) ::
        (match (getNode s idx).children with
         | [] => []
         | c :: _ => chainPairs s fuel c)

/-- An elision placeholder as displayed: subject "..." and empty id. -/
def isGapPair (p : String × String) : Bool := p.1 == "..." && p.2 == ""

/-- No two adjacent placeholders (each maximal run is one placeholder). -/
def noAdjGaps : List (String × String) → Bool
  | p :: q :: rest => (!(isGapPair p && isGapPair q)) && noAdjGaps (q :: rest)
  | _ => true

/-- The collapsed main line exactly as the claim describes it: walking
newest to oldest, a commit is kept verbatim when it is the first commit or
its id is needed; a run of other commits contributes exactly one
placeholder pair ("...", ""); each id is removed from the needed set when
encountered, and the walk stops once the set is empty. -/
def collapseSpecAux : List Commit → List String → Bool → Bool → List (String × String)
  | [], _, _, _ => []
  | c :: rest, needed, first, lastGap =>
      let kept := first || needed.contains c.hash
      let el : List (String × String) :=
        if kept then [(c.subject, c.hash)]
        else if lastGap then [] else [("...", "")]
      let needed1 := deleteNeeded needed c.hash
      el ++ (if needed1.isEmpty then [] else collapseSpecAux rest needed1 false (!kept))

def collapseSpec (needed : List String) (cs : List Commit) : List (String × String) :=
  collapseSpecAux cs needed true false

/-- Number of needed ids counting index 0 (as the claim counts them). -/
def keptTotal (needed : List String) (cs : List Commit) : Nat :=
  if needed.contains ((cs.headD default).hash) then needed.length else needed.length + 1

/-- A list of arena indices forms a first-child chain ending in a leaf. -/
def IsChain (s : BuildState) : List Nat → Prop
  | [] => True
  | [a] => (getNode s a).children = []
  | a :: b :: rest => (getNode s a).children.head? = some b ∧ IsChain s (b :: rest)

theorem chainPairs_of_isChain (s : BuildState) :
    ∀ (L : List Nat) (a : Nat) (fuel : Nat), IsChain s (a :: L) → L.length + 1 ≤ fuel →
    chainPairs s fuel a = (a :: L).map (fun j => pairOf (getNode s j)) := by
  intro L
  induction L with
  | nil =>
      intro a fuel hch hf
      cases fuel with
      | zero => omega
      | succ f =>
          show pairOf (getNode s a) :: _ = [pairOf (getNode s a)]
          have hc : (getNode s a).children = [] := hch
          rw [hc]
  | cons b rest ih =>
      intro a fuel hch hf
      cases fuel with
      | zero => simp at hf
      | succ f =>
          have hch2 : (getNode s a).children.head? = some b ∧ IsChain s (b :: rest) := hch
          show pairOf (getNode s a) ::
              (match (getNode s a).children with
               | [] => []
               | c :: _ => chainPairs s f c) = _
          cases hc : (getNode s a).children with
          | nil => rw [hc] at hch2; exact absurd hch2.1 (by simp)
          | cons c cs =>
              have hcb : c = b := by
                have := hch2.1
                rw [hc] at this
                exact Option.some.inj this
              subst hcb
              dsimp only
              rw [ih c f hch2.2 (by simp at hf; omega)]
              rfl

theorem IsChain_congr (s1 s2 : BuildState) :
    ∀ (L : List Nat), (∀ j ∈ L, getNode s2 j = getNode s1 j) → IsChain s1 L → IsChain s2 L := by
  intro L
  induction L with
  | nil => intro _ _; trivial
  | cons a tl ih =>
      intro hagree hch
      cases tl with
      | nil =>
          show (getNode s2 a).children = []
          rw [hagree a (List.mem_cons_self a [])]
          exact hch
      | cons b rest =>
          have hch2 : (getNode s1 a).children.head? = some b ∧ IsChain s1 (b :: rest) := hch
          refine ⟨?_, ?_⟩
          · rw [hagree a (List.mem_cons_self a _)]
            exact hch2.1
          · exact ih (fun j hj => hagree j (List.mem_cons_of_mem a hj)) hch2.2

theorem map_pairOf_congr (s1 s2 : BuildState) (L : List Nat)
    (h : ∀ j ∈ L, getNode s2 j = getNode s1 j) :
    L.map (fun j => pairOf (getNode s2 j)) = L.map (fun j => pairOf (getNode s1 j)) := by
  induction L with
  | nil => rfl
  | cons a tl ih =>
      show pairOf (getNode s2 a) :: _ = pairOf (getNode s1 a) :: _
      rw [h a (List.mem_cons_self a tl),
        ih (fun j hj => h j (List.mem_cons_of_mem a hj))]

theorem nodup_length_le (L : List Nat) (n : Nat) (hN : L.Nodup) (hb : ∀ j ∈ L, j < n) :
    L.length ≤ n := by
  have hcard : L.toFinset.card = L.length := List.toFinset_card_of_nodup hN
  have hsub : L.toFinset ⊆ Finset.range n := by
    intro x hx
    rw [List.mem_toFinset] at hx
    exact Finset.mem_range.mpr (hb x hx)
  have := Finset.card_le_card hsub
  rw [hcard, Finset.card_range] at this
  exact this

/-- Inputs of the C3 counterexample: the first main commit's subject is the
literal string "...". -/
def cexMain3 : List Commit :=
  [mkCommit "ha" "au" "...", mkCommit "hb" "au" "sb", mkCommit "hc" "au" "sc"]

/-- C3 counterexample: with `neededFromMain = {hc}` over `cexMain3` the
claim demands 3 reachable main-line nodes (2 needed ids counting index 0
plus 1 maximal non-needed run, represented by a placeholder with empty id);
the walk instead produces a 2-node chain with no empty-id placeholder: the
run {hb} merged into the verbatim first commit because its subject happens
to equal the elision marker. -/
theorem mainline_collapse_cex :
    (mainWalkAux ⟨"", false⟩ cexMain3 0 none none ⟨#[], [], ["hc"]⟩).2 = some 2
    ∧ chainPairs (mainWalkAux ⟨"", false⟩ cexMain3 0 none none ⟨#[], [], ["hc"]⟩).1
        (mainWalkAux ⟨"", false⟩ cexMain3 0 none none ⟨#[], [], ["hc"]⟩).1.nodes.size 2
      = [("sc", "hc"), ("...", "ha")]
    ∧ keptTotal ["hc"] cexMain3 = 2 := by
  refine ⟨?_, ?_, ?_⟩ <;> decide

theorem deleteNeeded_of_not_mem (l : List String) (h : String) (hm : h ∉ l) :
    deleteNeeded l h = l := by
  unfold deleteNeeded
  apply List.filter_eq_self.mpr
  intro x hx
  exact bne_iff_ne.mpr (fun he => hm (he ▸ hx))

theorem deleteNeeded_nodup (l : List String) (h : String) (hN : l.Nodup) :
    (deleteNeeded l h).Nodup := List.Nodup.filter _ hN

theorem deleteNeeded_length (l : List String) (h : String) (hN : l.Nodup) (hm : h ∈ l) :
    (deleteNeeded l h).length + 1 = l.length := by
  induction l with
  | nil => exact absurd hm (by simp)
  | cons a tl ih =>
      rw [List.nodup_cons] at hN
      show ((a :: tl).filter (fun x => x != h)).length + 1 = tl.length + 1
      rw [List.filter_cons]
      rcases List.mem_cons.mp hm with he | htl
      · have hfa : (a != h) = false := by
          rw [he]
          simp
        rw [hfa]
        simp only [Bool.false_eq_true, if_false]
        have : deleteNeeded tl h = tl := deleteNeeded_of_not_mem tl h (he ▸ hN.1)
        show (deleteNeeded tl h).length + 1 = tl.length + 1
        rw [this]
      · have hne : a ≠ h := fun he2 => hN.1 (he2 ▸ htl)
        have hfa : (a != h) = true := bne_iff_ne.mpr hne
        rw [hfa]
        simp only [if_pos, List.length_cons]
        have := ih hN.2 htl
        show (deleteNeeded tl h).length + 1 + 1 = tl.length + 1
        omega

theorem isEmpty_false_of_ne_nil (l : List String) (h : l ≠ []) : l.isEmpty = false := by
  cases l with
  | nil => exact absurd rfl h
  | cons a tl => rfl

theorem ne_nil_of_isEmpty_false (l : List String) (h : l.isEmpty = false) : l ≠ [] := by
  cases l with
  | nil => exact absurd h (by simp)
  | cons a tl => simp

theorem collapseSpecAux_cons (c : Commit) (rest : List Commit) (needed : List String)
    (first lastGap : Bool) :
    collapseSpecAux (c :: rest) needed first lastGap =
      (if first || needed.contains c.hash then [(c.subject, c.hash)]
       else if lastGap then [] else [("...", "")])
      ++ (if (deleteNeeded needed c.hash).isEmpty then []
          else collapseSpecAux rest (deleteNeeded needed c.hash) false
            (!(first || needed.contains c.hash))) := rfl

theorem isGapPair_kept (c : Commit) (h : c.subject ≠ "...") :
    isGapPair (c.subject, c.hash) = false := by
  unfold isGapPair
  have : (c.subject == "...") = false := beq_eq_false_iff_ne.mpr h
  rw [this]
  rfl

theorem countP_kept_singleton (c : Commit) (h : c.subject ≠ "...") :
    List.countP (fun p => !isGapPair p) [(c.subject, c.hash)] = 1 := by
  simp [List.countP_cons, isGapPair_kept c h]

theorem countP_gap_el (flag : Bool) :
    List.countP (fun p => !isGapPair p)
      (if flag then ([] : List (String × String)) else [("...", "")]) = 0 := by
  cases flag with
  | true => rfl
  | false => rfl

theorem countKept_aux :
    ∀ (cs : List Commit) (needed : List String) (flag : Bool),
    needed.Nodup → needed ≠ [] →
    (∀ h ∈ needed, h ∈ cs.map (fun c => c.hash)) →
    (∀ c ∈ cs, c.subject ≠ "...") →
    (collapseSpecAux cs needed false flag).countP (fun p => !(isGapPair p))
      = needed.length := by
  intro cs
  induction cs with
  | nil =>
      intro needed flag _hN hne hsub _hsubj
      rcases List.exists_mem_of_ne_nil needed hne with ⟨x, hx⟩
      exact absurd (hsub x hx) (by simp)
  | cons c rest ih =>
      intro needed flag hN hne hsub hsubj
      have hsubj1 : c.subject ≠ "..." := hsubj c (List.mem_cons_self c rest)
      have hsubjr : ∀ x ∈ rest, x.subject ≠ "..." :=
        fun x hx => hsubj x (List.mem_cons_of_mem c hx)
      rw [collapseSpecAux_cons]
      simp only [Bool.false_or]
      rw [List.countP_append]
      cases hc : needed.contains c.hash with
      | true =>
          have hcm : c.hash ∈ needed := (contains_iff_mem needed c.hash).mp hc
          have hlen := deleteNeeded_length needed c.hash hN hcm
          rw [if_pos rfl, countP_kept_singleton c hsubj1]
          cases he : (deleteNeeded needed c.hash).isEmpty with
          | true =>
              have h0 : deleteNeeded needed c.hash = [] := List.isEmpty_iff.mp he
              rw [h0, List.length_nil] at hlen
              rw [if_pos rfl]
              simp only [List.countP_nil]
              omega
          | false =>
              rw [if_neg (by simp)]
              rw [ih (deleteNeeded needed c.hash) _
                (deleteNeeded_nodup needed c.hash hN)
                (ne_nil_of_isEmpty_false _ he)
                (by
                  intro h hh
                  rcases (mem_deleteNeeded needed c.hash h).mp hh with ⟨hmem, hneq⟩
                  have := hsub h hmem
                  rw [List.map_cons, List.mem_cons] at this
                  rcases this with h1 | h1
                  · exact absurd h1 hneq
                  · exact h1)
                hsubjr]
              omega
      | false =>
          have hcm : c.hash ∉ needed := fun hm =>
            by rw [(contains_iff_mem needed c.hash).mpr hm] at hc; exact absurd hc (by simp)
          have hdel : deleteNeeded needed c.hash = needed :=
            deleteNeeded_of_not_mem needed c.hash hcm
          rw [if_neg (by simp)]
          rw [countP_gap_el flag]
          rw [hdel, isEmpty_false_of_ne_nil needed hne]
          rw [if_neg (by simp)]
          rw [ih needed _ hN hne
            (by
              intro h hh
              have := hsub h hh
              rw [List.map_cons, List.mem_cons] at this
              rcases this with h1 | h1
              · exact absurd h1 (fun he => hcm (he ▸ hh))
              · exact h1)
            hsubjr]
          omega

theorem countKept_top (needed : List String) (cs : List Commit)
    (hN : needed.Nodup)
    (hsub : ∀ h ∈ needed, h ∈ cs.map (fun c => c.hash))
    (hsubj : ∀ c ∈ cs, c.subject ≠ "...")
    (hne : cs ≠ []) :
    (collapseSpec needed cs).countP (fun p => !(isGapPair p)) = keptTotal needed cs := by
  cases cs with
  | nil => exact absurd rfl hne
  | cons c0 rest =>
      have hsubj0 : c0.subject ≠ "..." := hsubj c0 (List.mem_cons_self c0 rest)
      have hsubjr : ∀ x ∈ rest, x.subject ≠ "..." :=
        fun x hx => hsubj x (List.mem_cons_of_mem c0 hx)
      unfold collapseSpec keptTotal
      rw [collapseSpecAux_cons, List.headD_cons]
      rw [if_pos (by simp : (true || needed.contains c0.hash) = true)]
      rw [List.countP_append, countP_kept_singleton c0 hsubj0]
      cases hc : needed.contains c0.hash with
      | true =>
          have hcm : c0.hash ∈ needed := (contains_iff_mem needed c0.hash).mp hc
          have hlen := deleteNeeded_length needed c0.hash hN hcm
          conv_rhs => rw [if_pos rfl]
          cases he : (deleteNeeded needed c0.hash).isEmpty with
          | true =>
              have h0 : deleteNeeded needed c0.hash = [] := List.isEmpty_iff.mp he
              rw [h0, List.length_nil] at hlen
              rw [if_pos rfl]
              simp only [List.countP_nil]
              omega
          | false =>
              rw [if_neg (by simp)]
              rw [countKept_aux rest (deleteNeeded needed c0.hash) _
                (deleteNeeded_nodup needed c0.hash hN)
                (ne_nil_of_isEmpty_false _ he)
                (by
                  intro h hh
                  rcases (mem_deleteNeeded needed c0.hash h).mp hh with ⟨hmem, hneq⟩
                  have := hsub h hmem
                  rw [List.map_cons, List.mem_cons] at this
                  rcases this with h1 | h1
                  · exact absurd h1 hneq
                  · exact h1)
                hsubjr]
              omega
      | false =>
          have hcm : c0.hash ∉ needed := fun hm =>
            by rw [(contains_iff_mem needed c0.hash).mpr hm] at hc; exact absurd hc (by simp)
          have hdel : deleteNeeded needed c0.hash = needed :=
            deleteNeeded_of_not_mem needed c0.hash hcm
          conv_rhs => rw [if_neg (show ¬(false = true) by simp)]
          rw [hdel]
          cases hne2 : needed.isEmpty with
          | true =>
              have h0 : needed = [] := List.isEmpty_iff.mp hne2
              rw [if_pos rfl]
              simp only [List.countP_nil, h0, List.length_nil]
          | false =>
              rw [if_neg (by simp)]
              rw [countKept_aux rest needed _ hN
                (ne_nil_of_isEmpty_false _ hne2)
                (by
                  intro h hh
                  have := hsub h hh
                  rw [List.map_cons, List.mem_cons] at this
                  rcases this with h1 | h1
                  · exact absurd h1 (fun he2 => hcm (he2 ▸ hh))
                  · exact h1)
                hsubjr]
              omega

theorem noAdjGaps_cons (p : String × String) (X : List (String × String))
    (hp : isGapPair p = false) (hX : noAdjGaps X = true) : noAdjGaps (p :: X) = true := by
  cases X with
  | nil => rfl
  | cons q r =>
      show (!(isGapPair p && isGapPair q) && noAdjGaps (q :: r)) = true
      rw [hp, hX]
      rfl

/-- Heads of placeholder-run continuations are never placeholders. -/
def HeadNotGap (l : List (String × String)) : Prop :=
  ∀ p, l.head? = some p → isGapPair p = false

theorem noAdj_aux :
    ∀ (cs : List Commit) (needed : List String) (flag : Bool),
    (∀ c ∈ cs, c.subject ≠ "...") →
    noAdjGaps (collapseSpecAux cs needed false flag) = true
    ∧ (flag = true → HeadNotGap (collapseSpecAux cs needed false flag)) := by
  intro cs
  induction cs with
  | nil =>
      intro needed flag _h
      exact ⟨rfl, fun _ p hp => absurd hp (by simp [collapseSpecAux])⟩
  | cons c rest ih =>
      intro needed flag hsubj
      have hsubj1 : c.subject ≠ "..." := hsubj c (List.mem_cons_self c rest)
      have hsubjr : ∀ x ∈ rest, x.subject ≠ "..." :=
        fun x hx => hsubj x (List.mem_cons_of_mem c hx)
      rw [collapseSpecAux_cons]
      simp only [Bool.false_or]
      cases hc : needed.contains c.hash with
      | true =>
          simp only [if_pos]
          set X := (if (deleteNeeded needed c.hash).isEmpty then []
            else collapseSpecAux rest (deleteNeeded needed c.hash) false (!true)) with hX
          have hXadj : noAdjGaps X = true := by
            rw [hX]
            split
            · rfl
            · exact (ih (deleteNeeded needed c.hash) (!true) hsubjr).1
          refine ⟨?_, ?_⟩
          · rw [List.singleton_append]
            exact noAdjGaps_cons _ X (isGapPair_kept c hsubj1) hXadj
          · intro _ p hp
            rw [List.singleton_append] at hp
            have : p = (c.subject, c.hash) := by
              simp only [List.head?_cons] at hp
              exact (Option.some.inj hp).symm
            rw [this]
            exact isGapPair_kept c hsubj1
      | false =>
          simp only [Bool.false_eq_true, if_false]
          have hcm : c.hash ∉ needed := fun hm =>
            by rw [(contains_iff_mem needed c.hash).mpr hm] at hc; exact absurd hc (by simp)
          have hdel : deleteNeeded needed c.hash = needed :=
            deleteNeeded_of_not_mem needed c.hash hcm
          rw [hdel]
          cases hne2 : needed.isEmpty with
          | true =>
              simp only [if_pos]
              cases flag with
              | true =>
                  exact ⟨rfl, fun _ p hp => absurd hp (by simp)⟩
              | false =>
                  refine ⟨rfl, ?_⟩
                  intro hff
                  exact absurd hff (by simp)
          | false =>
              simp only [Bool.false_eq_true, if_false]
              have hrec := ih needed (!false) hsubjr
              cases flag with
              | true =>
                  refine ⟨?_, ?_⟩
                  · show noAdjGaps ([] ++ collapseSpecAux rest needed false (!false)) = true
                    rw [List.nil_append]
                    exact hrec.1
                  · intro _
                    show HeadNotGap ([] ++ collapseSpecAux rest needed false (!false))
                    rw [List.nil_append]
                    exact hrec.2 rfl
              | false =>
                  refine ⟨?_, ?_⟩
                  · show noAdjGaps ([("...", "")]
                        ++ collapseSpecAux rest needed false (!false)) = true
                    rw [List.singleton_append]
                    cases hcc : collapseSpecAux rest needed false (!false) with
                    | nil => rfl
                    | cons q r =>
                        show (!(isGapPair ("...", "") && isGapPair q)
                            && noAdjGaps (q :: r)) = true
                        have hq : isGapPair q = false := by
                          apply hrec.2 rfl q
                          rw [hcc]
                          rfl
                        rw [hq]
                        have : noAdjGaps (q :: r) = true := by
                          rw [← hcc]
                          exact hrec.1
                        rw [this]
                        rfl
                  · intro hff
                    exact absurd hff (by simp)

theorem noAdj_top (needed : List String) (cs : List Commit)
    (hsubj : ∀ c ∈ cs, c.subject ≠ "...") :
    noAdjGaps (collapseSpec needed cs) = true := by
  cases cs with
  | nil => rfl
  | cons c0 rest =>
      have hsubj0 : c0.subject ≠ "..." := hsubj c0 (List.mem_cons_self c0 rest)
      have hsubjr : ∀ x ∈ rest, x.subject ≠ "..." :=
        fun x hx => hsubj x (List.mem_cons_of_mem c0 hx)
      unfold collapseSpec
      rw [collapseSpecAux_cons]
      simp only [Bool.true_or, if_pos, List.singleton_append]
      apply noAdjGaps_cons _ _ (isGapPair_kept c0 hsubj0)
      split
      · rfl
      · exact (noAdj_aux rest (deleteNeeded needed c0.hash) (!true) hsubjr).1

theorem countP_split_gaps (l : List (String × String)) :
    l.length = l.countP (fun p => isGapPair p) + l.countP (fun p => !(isGapPair p)) := by
  induction l with
  | nil => rfl
  | cons a tl ih =>
      rw [List.length_cons, List.countP_cons, List.countP_cons, ih]
      cases h : isGapPair a with
      | true => simp [h]; omega
      | false => simp [h]; omega

theorem lookupCns_push_other (s s2 : BuildState) (k : String) (v : Nat) (x : String)
    (hne : x ≠ k) (hc : s2.cns = (k, v) :: s.cns) : lookupCns s2 x = lookupCns s x := by
  unfold lookupCns
  rw [hc, List.find?_cons_of_neg]
  intro hbeq
  exact hne (beq_iff_eq.mp hbeq).symm

theorem fresh_walkState_mNeeded (mb : Branch) (i : Nat) (c : Commit) (lastCn : Option Nat)
    (s : BuildState) :
    (walkLink lastCn s.nodes.size
      (walkTag mb i s.nodes.size (walkMarkMaster s.nodes.size (internFreshState s c)))).mNeeded
      = s.mNeeded := by
  rw [mNeeded_walkLink, mNeeded_walkTag, mNeeded_walkMarkMaster]
  rfl

theorem fresh_walkState_cns (mb : Branch) (i : Nat) (c : Commit) (lastCn : Option Nat)
    (s : BuildState) :
    (walkLink lastCn s.nodes.size
      (walkTag mb i s.nodes.size (walkMarkMaster s.nodes.size (internFreshState s c)))).cns
      = (c.hash, s.nodes.size) :: s.cns := by
  rw [cns_walkLink, cns_walkTag, cns_walkMarkMaster]
  rfl

theorem markMaster_internFresh_at_new (s : BuildState) (c : Commit) :
    getNode (walkMarkMaster s.nodes.size (internFreshState s c)) s.nodes.size
      = ⟨{ c with onMaster := true }, [], []⟩ := by
  unfold walkMarkMaster
  rw [getNode_modifyNode]
  rw [if_pos ⟨rfl, by rw [size_internFresh]; omega⟩]
  rw [getNode_internFresh, if_neg (by omega), if_pos rfl]

theorem fresh_walkState_children (mb : Branch) (i : Nat) (c : Commit) (l : Nat)
    (s : BuildState) (hi : (i == 0) = false) :
    (getNode (walkLink (some l) s.nodes.size
      (walkTag mb i s.nodes.size (walkMarkMaster s.nodes.size (internFreshState s c))))
      s.nodes.size).children = [l] := by
  rw [walkTag_id mb i s.nodes.size _ hi]
  show (getNode (if hasChild (walkMarkMaster s.nodes.size (internFreshState s c)) s.nodes.size
      (getNode (walkMarkMaster s.nodes.size (internFreshState s c)) l).commit.hash
    then walkMarkMaster s.nodes.size (internFreshState s c)
    else modifyNode (walkMarkMaster s.nodes.size (internFreshState s c)) s.nodes.size
      (fun n => { n with children := l :: n.children })) s.nodes.size).children = [l]
  have hhc : hasChild (walkMarkMaster s.nodes.size (internFreshState s c)) s.nodes.size
      (getNode (walkMarkMaster s.nodes.size (internFreshState s c)) l).commit.hash = false := by
    unfold hasChild
    rw [markMaster_internFresh_at_new]
    rfl
  rw [hhc]
  simp only [Bool.false_eq_true, if_false]
  rw [getNode_modifyNode,
    if_pos ⟨rfl, by rw [size_walkMarkMaster, size_internFresh]; omega⟩,
    markMaster_internFresh_at_new]

set_option maxHeartbeats 2000000 in
/-- The main-line walk started strictly after the first commit, over a
pristine region (every remaining hash uninterned), produces a chain whose
display pairs are exactly the claim-described collapse of the remaining
commits, reversed, in front of the chain built so far. -/
theorem walk_collapse (mb : Branch) :
    ∀ (R : List Commit) (neededCur : List String) (i : Nat) (l : Nat) (tail : List Nat)
      (gcn : Option Nat) (s : BuildState) (gapFlag : Bool),
    (i == 0) = false →
    s.mNeeded = neededCur →
    neededCur ≠ [] →
    (∀ c ∈ R, c.subject ≠ "...") →
    (∀ h ∈ neededCur, h ∈ R.map (fun c => c.hash)) →
    (R.map (fun c => c.hash)).Nodup →
    (∀ c ∈ R, lookupCns s c.hash = none) →
    IsChain s (l :: tail) →
    (∀ j ∈ l :: tail, j < s.nodes.size) →
    (l :: tail).Nodup →
    (((getNode s l).commit.subject = "...") ↔ gapFlag = true) →
    ∃ r tailF,
      (mainWalkAux mb R i (some l) gcn s).2 = some r
      ∧ IsChain (mainWalkAux mb R i (some l) gcn s).1 (r :: tailF)
      ∧ (∀ j ∈ r :: tailF, j < (mainWalkAux mb R i (some l) gcn s).1.nodes.size)
      ∧ (r :: tailF).Nodup
      ∧ (r :: tailF).map (fun j => pairOf (getNode (mainWalkAux mb R i (some l) gcn s).1 j))
          = (collapseSpecAux R neededCur false gapFlag).reverse
            ++ (l :: tail).map (fun j => pairOf (getNode s j)) := by
  intro R
  induction R with
  | nil =>
      intro neededCur i l tail gcn s gapFlag _hi _hmn hnne _hsubj hsub _hnd _hfr _hch _hb _hnd2 _hiff
      rcases List.exists_mem_of_ne_nil neededCur hnne with ⟨x, hx⟩
      exact absurd (hsub x hx) (by simp)
  | cons c rest ih =>
      intro neededCur i l tail gcn s gapFlag hi hmn hnne hsubj hsub hnd hfr hch hb hnd2 hiff
      have hlnone : lookupCns s c.hash = none := hfr c (List.mem_cons_self c rest)
      have hsubj1 : c.subject ≠ "..." := hsubj c (List.mem_cons_self c rest)
      have hsubjr : ∀ x ∈ rest, x.subject ≠ "..." :=
        fun x hx => hsubj x (List.mem_cons_of_mem c hx)
      have hfrr : ∀ x ∈ rest, lookupCns s x.hash = none :=
        fun x hx => hfr x (List.mem_cons_of_mem c hx)
      have hndh : c.hash ∉ rest.map (fun c => c.hash) := by
        have := hnd
        rw [List.map_cons, List.nodup_cons] at this
        exact this.1
      have hndr : (rest.map (fun c => c.hash)).Nodup := by
        have := hnd
        rw [List.map_cons, List.nodup_cons] at this
        exact this.2
      have hlbound : l < s.nodes.size := hb l (List.mem_cons_self l tail)
      set s4 := walkLink (some l) s.nodes.size
        (walkTag mb i s.nodes.size (walkMarkMaster s.nodes.size (internFreshState s c)))
        with hs4
      obtain ⟨hold, hcomN, hbrN, hszN⟩ := fresh_walkState_eval mb i c (some l) s hi
      have hchildN := fresh_walkState_children mb i c l s hi
      have hneed4 : s4.mNeeded = neededCur := by rw [hs4, fresh_walkState_mNeeded, hmn]
      have hcns4 : s4.cns = (c.hash, s.nodes.size) :: s.cns := by
        rw [hs4, fresh_walkState_cns]
      have hpairN : pairOf (getNode s4 s.nodes.size) = (c.subject, c.hash) := by
        unfold pairOf
        rw [hcomN]
      have hcond : (s4.mNeeded.contains c.hash || i == 0) = neededCur.contains c.hash := by
        rw [hneed4, hi, Bool.or_false]
      have hlsub : lastSubject s4 (some l) = (getNode s l).commit.subject := by
        show (getNode s4 l).commit.subject = _
        rw [hold l hlbound]
      -- the fresh region is preserved for the remaining commits
      have hfr2 : ∀ (t : BuildState), t.cns = (c.hash, s.nodes.size) :: s.cns →
          ∀ x ∈ rest, lookupCns t x.hash = none := by
        intro t htc x hx
        have hxne : x.hash ≠ c.hash := by
          intro he
          apply hndh
          rw [← he]
          exact List.mem_map.mpr ⟨x, hx, rfl⟩
        rw [lookupCns_push_other s t c.hash s.nodes.size x.hash hxne htc]
        exact hfrr x hx
      rw [mainWalkAux_cons]
      cases hkept : neededCur.contains c.hash with
      | true =>
          have hstepeq : mainStep mb i c (some l) s = (s4, s.nodes.size, some s.nodes.size) := by
            rw [mainStep_fresh_eq mb i c (some l) s hlnone]
            show (if (s4.mNeeded.contains c.hash || i == 0) = true
                then (s4, s.nodes.size, some s.nodes.size)
                else if (lastSubject s4 (some l) != "...") = true then
                  (walkElide s.nodes.size s4, s.nodes.size, some s.nodes.size)
                else (s4, s.nodes.size, some l)) = _
            rw [hcond, hkept]
            rw [if_pos rfl]
          rw [hstepeq]
          dsimp only
          rw [hneed4]
          rw [collapseSpecAux_cons]
          simp only [Bool.false_or]
          rw [hkept, if_pos rfl]
          cases hemp : (deleteNeeded neededCur c.hash).isEmpty with
          | true =>
              rw [if_pos rfl, if_pos rfl]
              refine ⟨s.nodes.size, l :: tail, rfl, ?_, ?_, ?_, ?_⟩
              · refine ⟨?_, ?_⟩
                · show (getNode s4 s.nodes.size).children.head? = some l
                  rw [hchildN]
                  rfl
                · exact IsChain_congr s _ (l :: tail)
                    (fun j hj => hold j (hb j hj)) hch
              · intro j hj
                show j < s4.nodes.size
                rw [hszN]
                rcases List.mem_cons.mp hj with hje | hjm
                · omega
                · have := hb j hjm
                  omega
              · rw [List.nodup_cons]
                refine ⟨?_, hnd2⟩
                intro hmem
                have := hb s.nodes.size hmem
                omega
              · show pairOf (getNode s4 s.nodes.size)
                    :: (l :: tail).map (fun j => pairOf (getNode s4 j))
                    = [(c.subject, c.hash)].reverse
                      ++ (l :: tail).map (fun j => pairOf (getNode s j))
                rw [hpairN,
                  map_pairOf_congr s s4 (l :: tail) (fun j hj => hold j (hb j hj))]
                rfl
          | false =>
              rw [if_neg (by simp), if_neg (by simp)]
              have hrec := ih (deleteNeeded neededCur c.hash) (i + 1) s.nodes.size (l :: tail)
                (some s.nodes.size)
                { s4 with mNeeded := deleteNeeded neededCur c.hash } (!(true : Bool))
                (by simp)
                rfl
                (ne_nil_of_isEmpty_false _ hemp)
                hsubjr
                (by
                  intro h hh
                  rcases (mem_deleteNeeded neededCur c.hash h).mp hh with ⟨hmem, hneq⟩
                  have := hsub h hmem
                  rw [List.map_cons, List.mem_cons] at this
                  rcases this with h1 | h1
                  · exact absurd h1 hneq
                  · exact h1)
                hndr
                (hfr2 _ (by show s4.cns = _; exact hcns4))
                (by
                  refine ⟨?_, ?_⟩
                  · show (getNode s4 s.nodes.size).children.head? = some l
                    rw [hchildN]
                    rfl
                  · exact IsChain_congr s _ (l :: tail)
                      (fun j hj => hold j (hb j hj)) hch)
                (by
                  intro j hj
                  show j < s4.nodes.size
                  rw [hszN]
                  rcases List.mem_cons.mp hj with hje | hjm
                  · omega
                  · have := hb j hjm
                    omega)
                (by
                  rw [List.nodup_cons]
                  refine ⟨?_, hnd2⟩
                  intro hmem
                  have := hb s.nodes.size hmem
                  omega)
                (by
                  apply iff_of_false
                  · show ¬(getNode s4 s.nodes.size).commit.subject = "..."
                    rw [hcomN]
                    exact hsubj1
                  · simp)
              obtain ⟨r, tailF, hroot, hchain, hbound, hndF, hmap⟩ := hrec
              refine ⟨r, tailF, hroot, hchain, hbound, hndF, ?_⟩
              rw [hmap]
              rw [List.reverse_append]
              rw [List.append_assoc]
              congr 1
              show (s.nodes.size :: l :: tail).map
                  (fun j => pairOf (getNode s4 j))
                  = [(c.subject, c.hash)].reverse
                    ++ (l :: tail).map (fun j => pairOf (getNode s j))
              rw [show (s.nodes.size :: l :: tail).map (fun j => pairOf (getNode s4 j))
                  = pairOf (getNode s4 s.nodes.size)
                    :: (l :: tail).map (fun j => pairOf (getNode s4 j)) from rfl]
              rw [hpairN,
                map_pairOf_congr s s4 (l :: tail) (fun j hj => hold j (hb j hj))]
              rfl
      | false =>
          have hnm : c.hash ∉ neededCur := fun hm =>
            by rw [(contains_iff_mem neededCur c.hash).mpr hm] at hkept
               exact absurd hkept (by simp)
          have hdel : deleteNeeded neededCur c.hash = neededCur :=
            deleteNeeded_of_not_mem neededCur c.hash hnm
          cases hgap : gapFlag with
          | false =>
              have hsne : (getNode s l).commit.subject ≠ "..." := by
                intro h
                have := hiff.mp h
                rw [hgap] at this
                exact absurd this (by simp)
              have hstepeq : mainStep mb i c (some l) s
                  = (walkElide s.nodes.size s4, s.nodes.size, some s.nodes.size) := by
                rw [mainStep_fresh_eq mb i c (some l) s hlnone]
                show (if (s4.mNeeded.contains c.hash || i == 0) = true
                    then (s4, s.nodes.size, some s.nodes.size)
                    else if (lastSubject s4 (some l) != "...") = true then
                      (walkElide s.nodes.size s4, s.nodes.size, some s.nodes.size)
                    else (s4, s.nodes.size, some l)) = _
                rw [hcond, hkept]
                rw [if_neg (by simp)]
                rw [hlsub, if_pos (bne_iff_ne.mpr hsne)]
              rw [hstepeq]
              dsimp only
              have helmn : (walkElide s.nodes.size s4).mNeeded = neededCur := by
                rw [mNeeded_walkElide, hneed4]
              rw [helmn, hdel, isEmpty_false_of_ne_nil neededCur hnne]
              rw [if_neg (by simp)]
              rw [collapseSpecAux_cons]
              simp only [Bool.false_or]
              rw [hkept]
              rw [if_neg (by simp), if_neg (by simp)]
              rw [hdel, isEmpty_false_of_ne_nil neededCur hnne]
              rw [if_neg (by simp)]
              have hszE : (walkElide s.nodes.size s4).nodes.size = s.nodes.size + 1 := by
                rw [size_walkElide, hszN]
              have holdE : ∀ j, j < s.nodes.size →
                  getNode (walkElide s.nodes.size s4) j = getNode s j := by
                intro j hj
                rw [getNode_walkElide, if_neg (by omega)]
                exact hold j hj
              have hnodeE : getNode (walkElide s.nodes.size s4) s.nodes.size
                  = { getNode s4 s.nodes.size with commit :=
                      { (getNode s4 s.nodes.size).commit with subject := "...", hash := "" } } := by
                rw [getNode_walkElide, if_pos ⟨rfl, by rw [hszN]; omega⟩]
              have hrec := ih neededCur (i + 1) s.nodes.size (l :: tail)
                (some s.nodes.size)
                { walkElide s.nodes.size s4 with mNeeded := neededCur }
                (!(false : Bool))
                (by simp)
                rfl
                hnne
                hsubjr
                (by
                  intro h hh
                  have := hsub h hh
                  rw [List.map_cons, List.mem_cons] at this
                  rcases this with h1 | h1
                  · exact absurd h1 (fun he => hnm (he ▸ hh))
                  · exact h1)
                hndr
                (hfr2 _ (by show (walkElide s.nodes.size s4).cns = _
                            rw [cns_walkElide]
                            exact hcns4))
                (by
                  refine ⟨?_, ?_⟩
                  · show (getNode (walkElide s.nodes.size s4) s.nodes.size).children.head?
                        = some l
                    rw [hnodeE]
                    show (getNode s4 s.nodes.size).children.head? = some l
                    rw [hchildN]
                    rfl
                  · exact IsChain_congr s _ (l :: tail)
                      (fun j hj => holdE j (hb j hj)) hch)
                (by
                  intro j hj
                  show j < (walkElide s.nodes.size s4).nodes.size
                  rw [hszE]
                  rcases List.mem_cons.mp hj with hje | hjm
                  · omega
                  · have := hb j hjm
                    omega)
                (by
                  rw [List.nodup_cons]
                  refine ⟨?_, hnd2⟩
                  intro hmem
                  have := hb s.nodes.size hmem
                  omega)
                (by
                  apply iff_of_true
                  · show (getNode (walkElide s.nodes.size s4) s.nodes.size).commit.subject
                        = "..."
                    rw [hnodeE]
                  · rfl)
              obtain ⟨r, tailF, hroot, hchain, hbound, hndF, hmap⟩ := hrec
              refine ⟨r, tailF, hroot, hchain, hbound, hndF, ?_⟩
              rw [hmap]
              rw [List.reverse_append]
              rw [List.append_assoc]
              congr 1
              show (s.nodes.size :: l :: tail).map
                  (fun j => pairOf (getNode (walkElide s.nodes.size s4) j))
                  = [("...", "")].reverse
                    ++ (l :: tail).map (fun j => pairOf (getNode s j))
              rw [show (s.nodes.size :: l :: tail).map
                    (fun j => pairOf (getNode (walkElide s.nodes.size s4) j))
                  = pairOf (getNode (walkElide s.nodes.size s4) s.nodes.size)
                    :: (l :: tail).map
                        (fun j => pairOf (getNode (walkElide s.nodes.size s4) j)) from rfl]
              have hpE : pairOf (getNode (walkElide s.nodes.size s4) s.nodes.size)
                  = ("...", "") := by
                unfold pairOf
                rw [hnodeE]
              rw [hpE,
                map_pairOf_congr s (walkElide s.nodes.size s4) (l :: tail)
                  (fun j hj => holdE j (hb j hj))]
              rfl
          | true =>
              have hseq : (getNode s l).commit.subject = "..." := hiff.mpr hgap
              have hstepeq : mainStep mb i c (some l) s = (s4, s.nodes.size, some l) := by
                rw [mainStep_fresh_eq mb i c (some l) s hlnone]
                show (if (s4.mNeeded.contains c.hash || i == 0) = true
                    then (s4, s.nodes.size, some s.nodes.size)
                    else if (lastSubject s4 (some l) != "...") = true then
                      (walkElide s.nodes.size s4, s.nodes.size, some s.nodes.size)
                    else (s4, s.nodes.size, some l)) = _
                rw [hcond, hkept]
                rw [if_neg (by simp)]
                rw [hlsub, if_neg (by rw [bne_eq_false_iff_eq.mpr hseq]; simp)]
              rw [hstepeq]
              dsimp only
              rw [hneed4, hdel, isEmpty_false_of_ne_nil neededCur hnne]
              rw [if_neg (by simp)]
              rw [collapseSpecAux_cons]
              simp only [Bool.false_or]
              rw [hkept]
              rw [if_neg (by simp), if_pos trivial]
              rw [hdel, isEmpty_false_of_ne_nil neededCur hnne]
              rw [if_neg (by simp)]
              have hrec := ih neededCur (i + 1) l tail (some s.nodes.size)
                { s4 with mNeeded := neededCur }
                (!(false : Bool))
                (by simp)
                rfl
                hnne
                hsubjr
                (by
                  intro h hh
                  have := hsub h hh
                  rw [List.map_cons, List.mem_cons] at this
                  rcases this with h1 | h1
                  · exact absurd h1 (fun he => hnm (he ▸ hh))
                  · exact h1)
                hndr
                (hfr2 _ (by show s4.cns = _; exact hcns4))
                (IsChain_congr s _ (l :: tail) (fun j hj => hold j (hb j hj)) hch)
                (by
                  intro j hj
                  show j < s4.nodes.size
                  rw [hszN]
                  have := hb j hj
                  omega)
                hnd2
                (by
                  apply iff_of_true
                  · show (getNode s4 l).commit.subject = "..."
                    rw [hold l hlbound]
                    exact hseq
                  · rfl)
              obtain ⟨r, tailF, hroot, hchain, hbound, hndF, hmap⟩ := hrec
              refine ⟨r, tailF, hroot, hchain, hbound, hndF, ?_⟩
              rw [hmap]
              rw [List.nil_append]
              congr 1
              exact map_pairOf_congr s s4 (l :: tail) (fun j hj => hold j (hb j hj))


theorem noAdjGaps_iff_chain :
    ∀ (l : List (String × String)),
    noAdjGaps l = true ↔ l.Chain' (fun p q => (isGapPair p && isGapPair q) = false) := by
  intro l
  induction l with
  | nil => exact ⟨fun _ => List.chain'_nil, fun _ => rfl⟩
  | cons a tl ih =>
      cases tl with
      | nil => exact ⟨fun _ => List.chain'_singleton a, fun _ => rfl⟩
      | cons b r =>
          rw [List.chain'_cons]
          constructor
          · intro h
            have h2 : ((!(isGapPair a && isGapPair b)) && noAdjGaps (b :: r)) = true := h
            rw [Bool.and_eq_true, Bool.not_eq_true'] at h2
            exact ⟨h2.1, ih.mp h2.2⟩
          · intro ⟨h1, h2⟩
            show ((!(isGapPair a && isGapPair b)) && noAdjGaps (b :: r)) = true
            rw [Bool.and_eq_true, Bool.not_eq_true']
            exact ⟨h1, ih.mpr h2⟩

theorem noAdjGaps_reverse (l : List (String × String)) :
    noAdjGaps l.reverse = noAdjGaps l := by
  rw [Bool.eq_iff_iff, noAdjGaps_iff_chain, noAdjGaps_iff_chain]
  rw [List.chain'_reverse]
  constructor
  · intro h
    refine h.imp ?_
    intro a b hh
    have hh2 : (isGapPair b && isGapPair a) = false := hh
    rw [Bool.and_comm] at hh2
    exact hh2
  · intro h
    refine h.imp ?_
    intro a b hh
    show (isGapPair b && isGapPair a) = false
    rw [Bool.and_comm]
    exact hh

theorem chainPairs_one (s : BuildState) (idx : Nat) (h : (getNode s idx).children = []) :
    chainPairs s 1 idx = [pairOf (getNode s idx)] := by
  show pairOf (getNode s idx) ::
      (match (getNode s idx).children with
       | [] => []
       | c :: _ => chainPairs s 0 c) = _
  rw [h]

theorem mainStep_zero (mb : Branch) (needed : List String) (c0 : Commit) :
    mainStep mb 0 c0 none ⟨#[], [], needed⟩
      = (walkLink none 0 (walkTag mb 0 0
          (walkMarkMaster 0 (internFreshState ⟨#[], [], needed⟩ c0))), 0, some 0) := by
  rw [mainStep_fresh_eq mb 0 c0 none ⟨#[], [], needed⟩ rfl]
  dsimp only
  rw [if_pos (by simp)]
  rfl

theorem walk_zero_node (mb : Branch) (needed : List String) (c0 : Commit) :
    getNode (walkLink none 0 (walkTag mb 0 0
      (walkMarkMaster 0 (internFreshState ⟨#[], [], needed⟩ c0)))) 0
      = ⟨{ c0 with onMaster := true }, [mb], []⟩ := by
  show getNode (walkTag mb 0 0 (walkMarkMaster 0 (internFreshState ⟨#[], [], needed⟩ c0))) 0 = _
  unfold walkTag
  rw [if_pos (show ((0 : Nat) == 0) = true from rfl)]
  rw [getNode_modifyNode]
  rw [if_pos ⟨rfl, by rw [size_walkMarkMaster, size_internFresh]; exact Nat.succ_pos _⟩]
  have hin : getNode (walkMarkMaster 0 (internFreshState ⟨#[], [], needed⟩ c0)) 0
      = ⟨{ c0 with onMaster := true }, [], []⟩ :=
    markMaster_internFresh_at_new ⟨#[], [], needed⟩ c0
  rw [hin]
  rfl

theorem walk_zero_size (mb : Branch) (needed : List String) (c0 : Commit) :
    (walkLink none 0 (walkTag mb 0 0
      (walkMarkMaster 0 (internFreshState ⟨#[], [], needed⟩ c0)))).nodes.size = 1 := by
  show (walkTag mb 0 0 (walkMarkMaster 0 (internFreshState ⟨#[], [], needed⟩ c0))).nodes.size = 1
  rw [size_walkTag, size_walkMarkMaster, size_internFresh]
  rfl

theorem walk_zero_cns (mb : Branch) (needed : List String) (c0 : Commit) :
    (walkLink none 0 (walkTag mb 0 0
      (walkMarkMaster 0 (internFreshState ⟨#[], [], needed⟩ c0)))).cns = [(c0.hash, 0)] :=
  fresh_walkState_cns mb 0 c0 none ⟨#[], [], needed⟩

theorem walk_zero_mNeeded (mb : Branch) (needed : List String) (c0 : Commit) :
    (walkLink none 0 (walkTag mb 0 0
      (walkMarkMaster 0 (internFreshState ⟨#[], [], needed⟩ c0)))).mNeeded = needed :=
  fresh_walkState_mNeeded mb 0 c0 none ⟨#[], [], needed⟩

set_option maxHeartbeats 1000000 in
/-- C3 (corrected): over a non-empty main-line list whose ids are pairwise
distinct and none of whose subjects is the literal elision marker "...",
and a duplicate-free needed set drawn from those ids, the main-line walk
returns a root whose first-child chain displays exactly the claim-described
collapse (oldest to newest): every kept node is the first or a needed
commit shown verbatim, each maximal run of other commits is exactly one
placeholder pair ("...", ""), no two placeholders are adjacent, the number
of non-placeholder nodes equals the number of needed ids counting index 0,
and the total node count is that number plus the number of placeholder
runs. -/
theorem mainline_collapse_amended (mb : Branch) (needed : List String)
    (mCommits : List Commit)
    (hne : mCommits ≠ [])
    (hnd : (mCommits.map (fun c => c.hash)).Nodup)
    (hsubj : ∀ c ∈ mCommits, c.subject ≠ "...")
    (hndN : needed.Nodup)
    (hsub : ∀ h ∈ needed, h ∈ mCommits.map (fun c => c.hash)) :
    ∃ r,
      (mainWalkAux mb mCommits 0 none none ⟨#[], [], needed⟩).2 = some r
      ∧ chainPairs (mainWalkAux mb mCommits 0 none none ⟨#[], [], needed⟩).1
          (mainWalkAux mb mCommits 0 none none ⟨#[], [], needed⟩).1.nodes.size r
        = (collapseSpec needed mCommits).reverse
      ∧ noAdjGaps (chainPairs (mainWalkAux mb mCommits 0 none none ⟨#[], [], needed⟩).1
          (mainWalkAux mb mCommits 0 none none ⟨#[], [], needed⟩).1.nodes.size r) = true
      ∧ (chainPairs (mainWalkAux mb mCommits 0 none none ⟨#[], [], needed⟩).1
          (mainWalkAux mb mCommits 0 none none ⟨#[], [], needed⟩).1.nodes.size r).countP
            (fun p => !(isGapPair p)) = keptTotal needed mCommits
      ∧ (chainPairs (mainWalkAux mb mCommits 0 none none ⟨#[], [], needed⟩).1
          (mainWalkAux mb mCommits 0 none none ⟨#[], [], needed⟩).1.nodes.size r).length
          = keptTotal needed mCommits
            + (chainPairs (mainWalkAux mb mCommits 0 none none ⟨#[], [], needed⟩).1
                (mainWalkAux mb mCommits 0 none none ⟨#[], [], needed⟩).1.nodes.size r).countP
              (fun p => isGapPair p) := by
  cases mCommits with
  | nil => exact absurd rfl hne
  | cons c0 rest =>
      have hsubj0 : c0.subject ≠ "..." := hsubj c0 (List.mem_cons_self c0 rest)
      have hsubjr : ∀ x ∈ rest, x.subject ≠ "..." :=
        fun x hx => hsubj x (List.mem_cons_of_mem c0 hx)
      rw [List.map_cons, List.nodup_cons] at hnd
      have hcore : ∃ r,
          (mainWalkAux mb (c0 :: rest) 0 none none ⟨#[], [], needed⟩).2 = some r
          ∧ chainPairs (mainWalkAux mb (c0 :: rest) 0 none none ⟨#[], [], needed⟩).1
              (mainWalkAux mb (c0 :: rest) 0 none none ⟨#[], [], needed⟩).1.nodes.size r
            = (collapseSpec needed (c0 :: rest)).reverse := by
        rw [mainWalkAux_cons]
        rw [mainStep_zero mb needed c0]
        dsimp only
        rw [walk_zero_mNeeded mb needed c0]
        cases hemp : (deleteNeeded needed c0.hash).isEmpty with
        | true =>
            rw [if_pos rfl]
            dsimp only
            refine ⟨0, rfl, ?_⟩
            have hszE : ({ walkLink none 0 (walkTag mb 0 0
                  (walkMarkMaster 0 (internFreshState ⟨#[], [], needed⟩ c0))) with
                mNeeded := deleteNeeded needed c0.hash } : BuildState).nodes.size = 1 :=
              walk_zero_size mb needed c0
            have hn0 : getNode ({ walkLink none 0 (walkTag mb 0 0
                  (walkMarkMaster 0 (internFreshState ⟨#[], [], needed⟩ c0))) with
                mNeeded := deleteNeeded needed c0.hash } : BuildState) 0
                = ⟨{ c0 with onMaster := true }, [mb], []⟩ :=
              walk_zero_node mb needed c0
            rw [hszE, chainPairs_one _ 0 (by rw [hn0])]
            rw [hn0]
            unfold collapseSpec
            rw [collapseSpecAux_cons]
            rw [if_pos (by simp : (true || needed.contains c0.hash) = true)]
            rw [hemp]
            rw [if_pos rfl]
            rfl
        | false =>
            rw [if_neg (by simp)]
            have hn0 : getNode ({ walkLink none 0 (walkTag mb 0 0
                  (walkMarkMaster 0 (internFreshState ⟨#[], [], needed⟩ c0))) with
                mNeeded := deleteNeeded needed c0.hash } : BuildState) 0
                = ⟨{ c0 with onMaster := true }, [mb], []⟩ :=
              walk_zero_node mb needed c0
            have hszE : ({ walkLink none 0 (walkTag mb 0 0
                  (walkMarkMaster 0 (internFreshState ⟨#[], [], needed⟩ c0))) with
                mNeeded := deleteNeeded needed c0.hash } : BuildState).nodes.size = 1 :=
              walk_zero_size mb needed c0
            have hcnsE : ({ walkLink none 0 (walkTag mb 0 0
                  (walkMarkMaster 0 (internFreshState ⟨#[], [], needed⟩ c0))) with
                mNeeded := deleteNeeded needed c0.hash } : BuildState).cns
                = [(c0.hash, 0)] :=
              walk_zero_cns mb needed c0
            obtain ⟨r, tailF, hroot, hchain, hbound, hndF, hmap⟩ :=
              walk_collapse mb rest (deleteNeeded needed c0.hash) (0 + 1) 0 [] (some 0)
                { walkLink none 0 (walkTag mb 0 0
                    (walkMarkMaster 0 (internFreshState ⟨#[], [], needed⟩ c0))) with
                  mNeeded := deleteNeeded needed c0.hash }
                false
                rfl
                rfl
                (ne_nil_of_isEmpty_false _ hemp)
                hsubjr
                (by
                  intro h hh
                  rcases (mem_deleteNeeded needed c0.hash h).mp hh with ⟨hmem, hneq⟩
                  have := hsub h hmem
                  rw [List.map_cons, List.mem_cons] at this
                  rcases this with h1 | h1
                  · exact absurd h1 hneq
                  · exact h1)
                hnd.2
                (by
                  intro x hx
                  have hxne : x.hash ≠ c0.hash := fun he =>
                    hnd.1 (he ▸ List.mem_map.mpr ⟨x, hx, rfl⟩)
                  unfold lookupCns
                  rw [hcnsE, List.find?_cons_of_neg]
                  · rfl
                  · intro hbeq
                    exact hxne (beq_iff_eq.mp hbeq).symm)
                (by
                  show (getNode _ 0).children = []
                  rw [hn0])
                (by
                  intro j hj
                  have hj0 : j = 0 := by simpa using hj
                  subst hj0
                  rw [hszE]
                  exact Nat.one_pos)
                (by simp)
                (by
                  apply iff_of_false
                  · rw [hn0]
                    exact hsubj0
                  · simp)
            refine ⟨r, hroot, ?_⟩
            have hlen : tailF.length + 1
                ≤ (mainWalkAux mb rest (0 + 1) (some 0) (some 0)
                    { walkLink none 0 (walkTag mb 0 0
                        (walkMarkMaster 0 (internFreshState ⟨#[], [], needed⟩ c0))) with
                      mNeeded := deleteNeeded needed c0.hash }).1.nodes.size := by
              have := nodup_length_le (r :: tailF) _ hndF hbound
              simpa using this
            rw [chainPairs_of_isChain _ tailF r _ hchain hlen]
            rw [hmap]
            unfold collapseSpec
            rw [collapseSpecAux_cons]
            simp only [Bool.true_or, Bool.not_true]
            rw [if_pos trivial]
            rw [hemp]
            rw [if_neg (by simp)]
            rw [List.reverse_append, List.reverse_singleton]
            congr 1
      obtain ⟨r, hroot, hP⟩ := hcore
      refine ⟨r, hroot, hP, ?_, ?_, ?_⟩
      · rw [hP, noAdjGaps_reverse]
        exact noAdj_top needed (c0 :: rest) hsubj
      · rw [hP, List.countP_reverse]
        exact countKept_top needed (c0 :: rest) hndN hsub hsubj (by simp)
      · rw [hP, List.length_reverse, List.countP_reverse]
        have h1 := countP_split_gaps (collapseSpec needed (c0 :: rest))
        have h2 := countKept_top needed (c0 :: rest) hndN hsub hsubj (by simp)
        omega

/-- Witness inputs for the amended C3 theorem: five main-line commits with
pairwise distinct ids, the second and fourth ids needed from the branch
phase (two singleton gaps around them). -/
def wMain5 : List Commit :=
  [mkCommit "ha" "au" "sa", mkCommit "hb" "au" "sb", mkCommit "hc" "au" "sc",
   mkCommit "hd" "au" "sd", mkCommit "he" "au" "se"]

/-- Witness for the amended C3 theorem at concrete inputs; every hypothesis
is discharged by evaluation. -/
theorem mainline_collapse_amended_witness :
    ∃ r,
      (mainWalkAux ⟨"main", true⟩ wMain5 0 none none ⟨#[], [], ["hb", "hd"]⟩).2 = some r
      ∧ chainPairs (mainWalkAux ⟨"main", true⟩ wMain5 0 none none ⟨#[], [], ["hb", "hd"]⟩).1
          (mainWalkAux ⟨"main", true⟩ wMain5 0 none none
            ⟨#[], [], ["hb", "hd"]⟩).1.nodes.size r
        = (collapseSpec ["hb", "hd"] wMain5).reverse
      ∧ noAdjGaps (chainPairs
          (mainWalkAux ⟨"main", true⟩ wMain5 0 none none ⟨#[], [], ["hb", "hd"]⟩).1
          (mainWalkAux ⟨"main", true⟩ wMain5 0 none none
            ⟨#[], [], ["hb", "hd"]⟩).1.nodes.size r) = true
      ∧ (chainPairs (mainWalkAux ⟨"main", true⟩ wMain5 0 none none ⟨#[], [], ["hb", "hd"]⟩).1
          (mainWalkAux ⟨"main", true⟩ wMain5 0 none none
            ⟨#[], [], ["hb", "hd"]⟩).1.nodes.size r).countP
            (fun p => !(isGapPair p)) = keptTotal ["hb", "hd"] wMain5
      ∧ (chainPairs (mainWalkAux ⟨"main", true⟩ wMain5 0 none none ⟨#[], [], ["hb", "hd"]⟩).1
          (mainWalkAux ⟨"main", true⟩ wMain5 0 none none
            ⟨#[], [], ["hb", "hd"]⟩).1.nodes.size r).length
          = keptTotal ["hb", "hd"] wMain5
            + (chainPairs
                (mainWalkAux ⟨"main", true⟩ wMain5 0 none none ⟨#[], [], ["hb", "hd"]⟩).1
                (mainWalkAux ⟨"main", true⟩ wMain5 0 none none
                  ⟨#[], [], ["hb", "hd"]⟩).1.nodes.size r).countP
              (fun p => isGapPair p) :=
  mainline_collapse_amended ⟨"main", true⟩ ["hb", "hd"] wMain5
    (by decide) (by decide) (by decide) (by decide) (by decide)

end GitBranchTree
